import Mathlib

/-!
# Verification of the spectrum-analysis pipeline (`main.py`)

Shallow embedding of the single source file `main.py`: a pipeline that
detects the left/right edges of a spectrum image from the column-luminance
gradient, splits the detected range into sectors, averages each sector's
color, classifies sectors from a scaled red channel, and writes a report.

Numeric model: the source computes with IEEE doubles.  All quantities that
arise here stay so far from every decision boundary (comparisons against
0.1, plateau equality, `round` half-points, `int` truncation) that exact
rational arithmetic produces the same control flow; we therefore embed the
float computations as exact fractions.  To keep every definition kernel-
executable we use an unnormalized fraction type `Frac` (integer numerator
and denominator, no gcd), with order/equality given by cross
multiplication; `Frac.toRat` maps it to `ℚ` for proofs.  All fractions the
pipeline builds have positive denominators (proved, not assumed).
-/

namespace MicSpec

/-- Exact unnormalized fraction: numerator and denominator (no gcd
normalization, so all operations are kernel-computable). -/
structure Frac where
  num : ℤ
  den : ℤ
deriving DecidableEq

/-- The fraction 0 (used where numpy writes a literal `0`). -/
def Frac.zero : Frac := ⟨0, 1⟩

/-- Embed a natural number (pixel channel values, counts). -/
def Frac.ofNat (n : ℕ) : Frac := ⟨(n : ℤ), 1⟩

def Frac.add (a b : Frac) : Frac := ⟨a.num * b.den + b.num * a.den, a.den * b.den⟩

def Frac.sub (a b : Frac) : Frac := ⟨a.num * b.den - b.num * a.den, a.den * b.den⟩

def Frac.mul (a b : Frac) : Frac := ⟨a.num * b.num, a.den * b.den⟩

def Frac.div (a b : Frac) : Frac := ⟨a.num * b.den, a.den * b.num⟩

/-- `np.abs`: valid as absolute value whenever the denominator is
positive, which holds for every fraction the pipeline builds. -/
def Frac.fabs (a : Frac) : Frac := ⟨|a.num|, a.den⟩

/-- Value comparison `a ≤ b` by cross multiplication (correct for positive
denominators). -/
def Frac.Le (a b : Frac) : Prop := a.num * b.den ≤ b.num * a.den

/-- Value comparison `a < b` by cross multiplication. -/
def Frac.Lt (a b : Frac) : Prop := a.num * b.den < b.num * a.den

/-- Value equality `a == b` by cross multiplication (float `==` is value
equality; correct for positive denominators). -/
def Frac.Eqv (a b : Frac) : Prop := a.num * b.den = b.num * a.den

instance (a b : Frac) : Decidable (Frac.Le a b) := inferInstanceAs (Decidable (_ ≤ _))

instance (a b : Frac) : Decidable (Frac.Lt a b) := inferInstanceAs (Decidable (_ < _))

instance (a b : Frac) : Decidable (Frac.Eqv a b) := inferInstanceAs (Decidable (_ = _))

/-- `np.min` of two values. -/
def Frac.fmin (a b : Frac) : Frac := if Frac.Le a b then a else b

/-- `np.max` of two values. -/
def Frac.fmax (a b : Frac) : Frac := if Frac.Le a b then b else a

/-- Semantics of a fraction as a rational (proof-side only). -/
def Frac.toRat (a : Frac) : ℚ := (a.num : ℚ) / (a.den : ℚ)

/-- Python `int(...)` on the nonnegative values produced by the pipeline:
floor (truncation toward zero coincides with floor on nonnegative input). -/
def Frac.floorNat (a : Frac) : ℕ := (a.num.fdiv a.den).toNat

/-- The float literal `1e-10` from line 49 of `main.py`. -/
def epsTiny : Frac := ⟨1, 10000000000⟩

/-- The peak-height threshold `0.1` from line 59 of `main.py`. -/
def tenth : Frac := ⟨1, 10⟩

/-- All denominators of a list positive (every list the pipeline builds
satisfies this; proved stage by stage). -/
def DenPos (xs : List Frac) : Prop := ∀ x ∈ xs, 0 < x.den

/-! ## Images -/

/-- A pixel: RGB channel triple (each 0–255 in a well-formed image). -/
abbrev RGB := ℕ × ℕ × ℕ

/-- A decoded image `np.array(img)`: a list of rows of pixels. -/
abbrev Img := List (List RGB)

/-- Image width (number of columns of the first row). -/
def width (img : Img) : ℕ := (img.headD []).length

/-- Image height (number of rows). -/
def height (img : Img) : ℕ := img.length

/-- A decoded raster image: at least one row, rectangular, channels ≤ 255. -/
def WellFormed (img : Img) : Prop :=
  img ≠ [] ∧ (∀ row ∈ img, row.length = width img) ∧
    ∀ row ∈ img, ∀ p ∈ row, p.1 ≤ 255 ∧ p.2.1 ≤ 255 ∧ p.2.2 ≤ 255

/-! ## Edge detection (lines 47–70 of `main.py`) -/

/-- One channel of `np.mean(img_array, axis=0)` at column `c`:
the mean over all rows of that channel. -/
def colMean (img : Img) (c : ℕ) (chan : RGB → ℕ) : Frac :=
  Frac.div ((img.map (fun row => Frac.ofNat (chan (row.getD c (0, 0, 0))))).foldr
    Frac.add Frac.zero) (Frac.ofNat (height img))

/-- `np.mean(avg_colors, axis=1)` at column `c`: mean of the three
channel means. -/
def colGray (img : Img) (c : ℕ) : Frac :=
  Frac.div (Frac.add (Frac.add (colMean img c (fun p => p.1)) (colMean img c (fun p => p.2.1)))
    (colMean img c (fun p => p.2.2))) (Frac.ofNat 3)

/-- The column luminance profile `grayscale` before normalization. -/
def grayProfile (img : Img) : List Frac := (List.range (width img)).map (colGray img)

/-- `np.min` of a list (the list is nonempty wherever this is used). -/
def listMin (xs : List Frac) : Frac := xs.foldr Frac.fmin (xs.headD Frac.zero)

/-- `np.max` of a list. -/
def listMax (xs : List Frac) : Frac := xs.foldr Frac.fmax (xs.headD Frac.zero)

/-- Line 49: `(grayscale - min) / (max - min + 1e-10)`. -/
def normalize (xs : List Frac) : List Frac :=
  xs.map (fun v =>
    Frac.div (Frac.sub v (listMin xs)) (Frac.add (Frac.sub (listMax xs) (listMin xs)) epsTiny))

/-- `np.gradient` on a 1-D array of length ≥ 2: central differences in the
interior, one-sided differences at the two ends.  (For length < 2 numpy
raises; `detectEdges` returns `none` in that case.) -/
def npGradient (xs : List Frac) : List Frac :=
  (List.range xs.length).map (fun i =>
    if i = 0 then Frac.sub (xs.getD 1 Frac.zero) (xs.getD 0 Frac.zero)
    else if i + 1 = xs.length then Frac.sub (xs.getD i Frac.zero) (xs.getD (i - 1) Frac.zero)
    else Frac.div (Frac.sub (xs.getD (i + 1) Frac.zero) (xs.getD (i - 1) Frac.zero))
      (Frac.ofNat 2))

/-- Line 54: `int(width * 0.9)`.  For the integer widths of real images
the double product `width * 0.9` truncates to `⌊9·width/10⌋`. -/
def ignoreRight (w : ℕ) : ℕ := 9 * w / 10

/-- Line 56: copy of the gradient magnitude with all columns at or beyond
`ignoreRight` zeroed out. -/
def zeroFrom (xs : List Frac) (iR : ℕ) : List Frac :=
  (List.range xs.length).map (fun i => if i < iR then xs.getD i Frac.zero else Frac.zero)

/-! ### `scipy.signal.find_peaks` (line 59)

`find_peaks(x, height=0.1, distance=20)`: local maxima (midpoints of flat
plateaus), then the height filter, then greedy removal, in order of
decreasing peak height, of all remaining peaks closer than `distance` to a
kept peak.  Ties between equal peak heights are broken by `np.argsort`'s
unspecified (but deterministic) order; here by original ascending position. -/

/-- Index of the last element of the plateau of equal values starting at
`l` (scipy `_local_maxima_1d`'s `i_ahead - 1`). -/
def runEnd (xs : List Frac) (l : ℕ) : ℕ :=
  l + ((xs.drop (l + 1)).takeWhile (fun y => decide (Frac.Eqv y (xs.getD l Frac.zero)))).length

/-- All local maxima of `xs`, as plateau midpoints, in ascending order:
a strict rise into a plateau at `l..r` followed by a strict drop at `r+1`,
recorded at `(l+r)/2`; the first and last sample are never peaks. -/
def localMaxima (xs : List Frac) : List ℕ :=
  (List.range xs.length).filterMap (fun l =>
    if 1 ≤ l ∧ Frac.Lt (xs.getD (l - 1) Frac.zero) (xs.getD l Frac.zero) then
      if runEnd xs l + 2 ≤ xs.length ∧
          Frac.Lt (xs.getD (runEnd xs l + 1) Frac.zero) (xs.getD l Frac.zero) then
        some ((l + runEnd xs l) / 2)
      else none
    else none)

/-- Distance between two column indices. -/
def natDist (a b : ℕ) : ℕ := max a b - min a b

/-- scipy `_select_by_peak_distance`: walk the peaks in decreasing
priority; a peak not yet removed is kept and removes every other
remaining peak closer than `dist` to it. -/
def selectLoop (dist : ℕ) : List ℕ → List ℕ → List ℕ
  | [], _ => []
  | p :: rest, removed =>
    if p ∈ removed then selectLoop dist rest removed
    else p :: selectLoop dist rest (removed ++ rest.filter (fun q => natDist p q < dist))

/-- `signal.find_peaks(xs, height=hmin, distance=dist)`: the surviving
peak positions in ascending order. -/
def findPeaks (xs : List Frac) (hmin : Frac) (dist : ℕ) : List ℕ :=
  (localMaxima xs).filter (fun p =>
    decide (Frac.Le hmin (xs.getD p Frac.zero)) &&
      decide (p ∈ selectLoop dist
        (List.insertionSort
          (fun a b => Frac.Le (xs.getD b Frac.zero) (xs.getD a Frac.zero))
          ((localMaxima xs).filter (fun q => decide (Frac.Le hmin (xs.getD q Frac.zero)))))
        []))

/-- Line 62: `peaks[np.argsort(modified_gradient[peaks])[-2:]]` followed by
`min`/`max`: the two peaks of largest modified-gradient value, returned as
(smaller index, larger index). -/
def pickStrongestTwo (xs : List Frac) (peaks : List ℕ) : ℕ × ℕ :=
  (min ((List.insertionSort
      (fun a b => Frac.Le (xs.getD b Frac.zero) (xs.getD a Frac.zero)) peaks).getD 0 0)
    ((List.insertionSort
      (fun a b => Frac.Le (xs.getD b Frac.zero) (xs.getD a Frac.zero)) peaks).getD 1 0),
   max ((List.insertionSort
      (fun a b => Frac.Le (xs.getD b Frac.zero) (xs.getD a Frac.zero)) peaks).getD 0 0)
    ((List.insertionSort
      (fun a b => Frac.Le (xs.getD b Frac.zero) (xs.getD a Frac.zero)) peaks).getD 1 0))

/-- The normalized luminance profile (line 49). -/
def normProfile (img : Img) : List Frac := normalize (grayProfile img)

/-- `modified_gradient` (lines 50–56): absolute gradient of the normalized
profile with the rightmost 10% of columns zeroed. -/
def modifiedOf (img : Img) : List Frac :=
  zeroFrom ((npGradient (normProfile img)).map Frac.fabs) (ignoreRight (width img))

/-- `peaks` (line 59). -/
def peaksOf (img : Img) : List ℕ := findPeaks (modifiedOf img) tenth 20

/-- The Edge Detector (lines 47–70).  Returns `none` when the profile has
fewer than 2 samples (`np.gradient` raises, caught by the handler at line
111); otherwise the strongest-two-peaks selection with the defensive clamp
of the right edge, or the `width//4`–`3·width//4` fallback. -/
def detectEdges (img : Img) : Option (ℕ × ℕ) :=
  if width img < 2 then none
  else if 2 ≤ (peaksOf img).length then
    some ((pickStrongestTwo (modifiedOf img) (peaksOf img)).1,
      min (pickStrongestTwo (modifiedOf img) (peaksOf img)).2 (ignoreRight (width img)))
  else some (width img / 4, min (3 * width img / 4) (ignoreRight (width img)))

/-! ## Sector analysis (lines 78–92) -/

/-- `sector_width = (right_edge - left_edge) / num_sectors` (line 78), in
exact arithmetic.  This is the exact-arithmetic model of the sector width;
the double-precision computation the source actually performs is
`sectorWidthFP` below, and the two agree whenever the rounded width times
`i` is exact (for the pipeline's default `N = 32` and realistic
magnitudes, `(r−l)/32` is dyadic and the concrete instances used in this
file agree, so the concrete-image theorems may use either model). -/
def sectorWidth (l r N : ℕ) : Frac :=
  Frac.div (Frac.sub (Frac.ofNat r) (Frac.ofNat l)) (Frac.ofNat N)

/-- `int(left_edge + i*sector_width)` (line 79), in exact arithmetic (see
`sectorBoundaryFP` for the double-precision computation). -/
def sectorBoundary (l r N i : ℕ) : ℕ :=
  Frac.floorNat (Frac.add (Frac.ofNat l) (Frac.mul (Frac.ofNat i) (sectorWidth l r N)))

/-- `sector_boundaries` (line 79): the `N+1` boundary columns, in exact
arithmetic. -/
def sectorBoundaries (l r N : ℕ) : List ℕ :=
  (List.range (N + 1)).map (sectorBoundary l r N)

/-! ### Line 78–79 at IEEE double precision

The sector-width and boundary computations are performed in binary64.
Unlike the rest of the pipeline, their results are NOT robust to the
float/exact gap (e.g. `int(49 * (1/49)) = 0`), so they are also modeled at
full double precision: `flD` rounds an exact fraction to the nearest
binary64 value (ties to even), and each arithmetic operation of lines
78–79 is a correctly-rounded (exact-then-round) step, exactly as CPython
and numpy compute it.  Overflow and subnormals cannot arise at the
magnitudes of the fuel bound `2^1100` (beyond every claim's range). -/

/-- Largest `e` (up to `fuel`) with `b·2^e ≤ a`, for `b ≤ a`: the binary
exponent of `a/b ≥ 1`. -/
def findExpUp : ℕ → ℕ → ℕ → ℕ
  | 0, _, _ => 0
  | fuel + 1, a, b => if b * 2 ≤ a then findExpUp fuel a (b * 2) + 1 else 0

/-- Smallest `k ≥ 1` (up to `fuel`) with `b ≤ a·2^k`, for `a < b`: minus
the binary exponent of `a/b < 1`. -/
def findExpDown : ℕ → ℕ → ℕ → ℕ
  | 0, _, _ => 0
  | fuel + 1, a, b => if b ≤ a * 2 then 1 else findExpDown fuel (a * 2) b + 1

/-- Round `a/b` to the nearest integer, ties to even. -/
def roundHalfEven (a b : ℕ) : ℕ :=
  if 2 * (a % b) < b then a / b
  else if b < 2 * (a % b) then a / b + 1
  else if (a / b) % 2 = 0 then a / b else a / b + 1

/-- Round the positive ratio `a/b` to the nearest binary64 value (53-bit
significand, round to nearest, ties to even). -/
def flPos (a b : ℕ) : Frac :=
  if b ≤ a then
    if findExpUp 1100 a b ≤ 52 then
      ⟨(roundHalfEven (a * 2 ^ (52 - findExpUp 1100 a b)) b : ℤ),
        ((2 ^ (52 - findExpUp 1100 a b) : ℕ) : ℤ)⟩
    else
      ⟨(roundHalfEven a (b * 2 ^ (findExpUp 1100 a b - 52)) : ℤ) *
        ((2 ^ (findExpUp 1100 a b - 52) : ℕ) : ℤ), 1⟩
  else
    ⟨(roundHalfEven (a * 2 ^ (52 + findExpDown 1100 a b)) b : ℤ),
      ((2 ^ (52 + findExpDown 1100 a b) : ℕ) : ℤ)⟩

/-- Round an exact fraction to the nearest binary64 value. -/
def flD (x : Frac) : Frac :=
  if x.num = 0 then Frac.zero
  else if 0 < x.num * x.den then flPos x.num.natAbs x.den.natAbs
  else ⟨-(flPos x.num.natAbs x.den.natAbs).num, (flPos x.num.natAbs x.den.natAbs).den⟩

/-- A correctly-rounded double addition. -/
def fpAdd (x y : Frac) : Frac := flD (Frac.add x y)

/-- A correctly-rounded double multiplication. -/
def fpMul (x y : Frac) : Frac := flD (Frac.mul x y)

/-- A correctly-rounded double division. -/
def fpDiv (x y : Frac) : Frac := flD (Frac.div x y)

/-- Line 78 in binary64: the integer difference `right − left` and the
integer `num_sectors` are converted to doubles (exact below `2^53`) and
divided with one rounding, as CPython true division does. -/
def sectorWidthFP (l r N : ℕ) : Frac :=
  fpDiv (flD (Frac.sub (Frac.ofNat r) (Frac.ofNat l))) (flD (Frac.ofNat N))

/-- Line 79 in binary64: `int(left_edge + i*sector_width)`, with the
integers converted exactly and one rounding per operation; `int()`
truncates, which on the nonnegative values arising for `l ≤ r` is the
floor. -/
def sectorBoundaryFP (l r N i : ℕ) : ℕ :=
  Frac.floorNat (fpAdd (flD (Frac.ofNat l)) (fpMul (flD (Frac.ofNat i)) (sectorWidthFP l r N)))

/-- The `N+1` boundary columns of line 79 in binary64. -/
def sectorBoundariesFP (l r N : ℕ) : List ℕ :=
  (List.range (N + 1)).map (sectorBoundaryFP l r N)

/-- The exact quotient `float(right_edge - left_edge) / float(num_sectors)`
of line 78 before the division's rounding step, so that
`sectorWidthFP l r N = flD (wFrac l r N)`. -/
def wFrac (l r N : ℕ) : Frac :=
  Frac.div (flD (Frac.sub (Frac.ofNat r) (Frac.ofNat l))) (flD (Frac.ofNat N))

/-- The exact product `float(i) * sector_width` of line 79 before its
rounding step. -/
def iTimesW (l r N i : ℕ) : Frac :=
  Frac.mul (flD (Frac.ofNat i)) (sectorWidthFP l r N)

/-- The exact sum `float(left_edge) + fl(i * sector_width)` of line 79
before its rounding step, so that
`sectorBoundaryFP l r N i = Frac.floorNat (flD (lPlusITimesW l r N i))`. -/
def lPlusITimesW (l r N i : ℕ) : Frac :=
  Frac.add (flD (Frac.ofNat l)) (flD (iTimesW l r N i))

/-- Sum of one channel over the pixel block of all rows and columns
`[a, b)` (`img_array[:, a:b]`). -/
def blockSum (img : Img) (a b : ℕ) (chan : RGB → ℕ) : ℕ :=
  (img.map (fun row =>
    ((List.range (b - a)).map (fun j => chan (row.getD (a + j) (0, 0, 0)))).sum)).sum

/-- `np.mean(sector, axis=(0,1)).astype(int)` (line 91): per-channel mean
of the block, truncated to an integer.  The mean of an empty block is NaN
and `astype(int)` on NaN is undefined, modeled as `none`. -/
def avgColor (img : Img) (a b : ℕ) : Option RGB :=
  if img = [] ∨ b ≤ a then none
  else some
    (blockSum img a b (fun p => p.1) / (height img * (b - a)),
     blockSum img a b (fun p => p.2.1) / (height img * (b - a)),
     blockSum img a b (fun p => p.2.2) / (height img * (b - a)))

/-- `sector_colors` (lines 88–92): the `N` per-sector average colors. -/
def sectorColorsOf (img : Img) (l r N : ℕ) : List (Option RGB) :=
  (List.range N).map (fun i =>
    avgColor img (sectorBoundary l r N i) (sectorBoundary l r N (i + 1)))

/-- The analysis record returned by `process_spectrum` (lines 104–109). -/
structure SpectrumResult where
  edges : ℕ × ℕ
  sector_boundaries : List ℕ
  sector_colors : List (Option RGB)
  spectrum_width : ℕ
deriving DecidableEq

/-- `process_spectrum` on a decoded image: `none` exactly when the body
raises (caught at line 111). -/
def processSpectrum (img : Img) (N : ℕ) : Option SpectrumResult :=
  (detectEdges img).map (fun e =>
    { edges := e
      sector_boundaries := sectorBoundaries e.1 e.2 N
      sector_colors := sectorColorsOf img e.1 e.2 N
      spectrum_width := e.2 - e.1 })

/-- `process_spectrum` with the drawing calls made explicit: the pixel
data is snapshotted into `img_array` (line 32) before any overlay is
drawn, the title box is drawn before edge detection, and the remaining
overlays are drawn between detection and averaging; the draw functions
mutate only the PIL image, never the snapshot. -/
def processSpectrumDraw (dTitle dBox dEdgeLines dSectorLines dLabels : Img → Img)
    (img : Img) (N : ℕ) : Option (Img × SpectrumResult) :=
  (detectEdges img).map (fun e =>
    (dLabels (dSectorLines (dEdgeLines (dBox (dTitle img)))),
     { edges := e
       sector_boundaries := sectorBoundaries e.1 e.2 N
       sector_colors := sectorColorsOf img e.1 e.2 N
       spectrum_width := e.2 - e.1 }))

/-! ## Classification and report (lines 157–167) -/

/-- `int(np.round(c / 255 * 360))` for one channel value: never lands on a
half-integer (`24c/17 = k + 1/2` is impossible), so banker's rounding
equals `⌊24c/17 + 1/2⌋ = (48c + 17)/34`. -/
def scaleChannel (c : ℕ) : ℕ := (48 * c + 17) / 34

/-- `hsv` (line 160): all three channels scaled by `360/255`. -/
def hsvOf (c : RGB) : ℕ × ℕ × ℕ := (scaleChannel c.1, scaleChannel c.2.1, scaleChannel c.2.2)

/-- The `if/elif/elif` chain of lines 161–166; only `hsv[0]` is consulted.
With no branch taken the variable `sell` would be unbound (`NameError`),
modeled as `none`; the chain is in fact total. -/
def classifyColor (c : RGB) : Option String :=
  if 200 ≤ (hsvOf c).1 then some "Don\x27t sell"
  else if 125 ≤ (hsvOf c).1 then some "Squeeze room"
  else if (hsvOf c).1 < 125 then some "Sell"
  else none

/-- The classification rule as the specification words it: a threshold
function of the single scaled red channel. -/
def specLabel (v : ℕ) : String :=
  if 200 ≤ v then "Don\x27t sell" else if 125 ≤ v then "Squeeze room" else "Sell"

/-- The spec's boundary formula: `boundary[i] = ⌊left + i·(right−left)/N⌋`. -/
def specBoundary (l r N i : ℕ) : ℕ := l + i * (r - l) / N

/-- The report file body (lines 158–167): the header line followed by one
line per sector.  Undefined (NaN-poisoned) sector colors make the written
lines platform-dependent; the report is modeled only when every sector
color is defined. -/
def reportOf (colors : List (Option RGB)) : Option (List String) :=
  (colors.mapM (fun oc : Option RGB => oc.bind classifyColor)).map (fun labels =>
    "Sector #, Opinion" ::
      labels.enum.map (fun p => "Sector " ++ toString (p.1 + 1) ++ ", " ++ p.2))

/-! ## Folder driver (lines 117–172) -/

/-- `process_folder` over a directory listing: each file comes with the
result of decoding it (`none` = decode failure).  Every per-file error is
modeled by `Option`: a failing file contributes nothing and processing
continues with the next file. -/
def processFolder (files : List (String × Option Img)) (N : ℕ) :
    List (String × SpectrumResult) :=
  files.filterMap (fun f =>
    (f.2.bind (fun im => processSpectrum im N)).map (fun res => (f.1, res)))

/-! ## Concrete test images -/

/-- A solid image: `h` rows of `w` copies of gray value `g`. -/
def grayImage (w h g : ℕ) : Img := List.replicate h (List.replicate w (g, g, g))

/-- A 30×1 image with a white band on black: columns 0–4 black, 5–25
white, 26–29 black.  Its gradient has exactly two peaks (at columns 4 and
25), 21 columns apart. -/
def twoStepImg : Img :=
  [List.replicate 5 (0, 0, 0) ++ List.replicate 21 (255, 255, 255) ++
    List.replicate 4 (0, 0, 0)]

/-! # Proofs -/

/-! ## Fraction lemmas -/

theorem Frac.toRat_zero : Frac.zero.toRat = 0 := by
  simp [Frac.toRat, Frac.zero]

theorem Frac.toRat_ofNat (n : ℕ) : (Frac.ofNat n).toRat = (n : ℚ) := by
  simp [Frac.toRat, Frac.ofNat]

theorem Frac.le_iff {a b : Frac} (ha : 0 < a.den) (hb : 0 < b.den) :
    Frac.Le a b ↔ a.toRat ≤ b.toRat := by
  unfold Frac.Le Frac.toRat
  rw [div_le_div_iff₀ (by exact_mod_cast ha) (by exact_mod_cast hb)]
  exact_mod_cast Iff.rfl

theorem Frac.lt_iff {a b : Frac} (ha : 0 < a.den) (hb : 0 < b.den) :
    Frac.Lt a b ↔ a.toRat < b.toRat := by
  unfold Frac.Lt Frac.toRat
  rw [div_lt_div_iff₀ (by exact_mod_cast ha) (by exact_mod_cast hb)]
  exact_mod_cast Iff.rfl

theorem Frac.eqv_iff {a b : Frac} (ha : 0 < a.den) (hb : 0 < b.den) :
    Frac.Eqv a b ↔ a.toRat = b.toRat := by
  unfold Frac.Eqv Frac.toRat
  rw [div_eq_div_iff (by positivity) (by positivity)]
  exact_mod_cast Iff.rfl

theorem Frac.eqv_refl (a : Frac) : Frac.Eqv a a := rfl

theorem Frac.fmin_choice (a b : Frac) : Frac.fmin a b = a ∨ Frac.fmin a b = b := by
  unfold Frac.fmin; split <;> simp

theorem Frac.fmax_choice (a b : Frac) : Frac.fmax a b = a ∨ Frac.fmax a b = b := by
  unfold Frac.fmax; split <;> simp

theorem Frac.toRat_fmin {a b : Frac} (ha : 0 < a.den) (hb : 0 < b.den) :
    (Frac.fmin a b).toRat = min a.toRat b.toRat := by
  unfold Frac.fmin
  by_cases h : Frac.Le a b
  · rw [if_pos h, min_eq_left ((Frac.le_iff ha hb).mp h)]
  · rw [if_neg h]
    rw [Frac.le_iff ha hb] at h
    rw [min_eq_right (le_of_not_le h)]

theorem Frac.toRat_fmax {a b : Frac} (ha : 0 < a.den) (hb : 0 < b.den) :
    (Frac.fmax a b).toRat = max a.toRat b.toRat := by
  unfold Frac.fmax
  by_cases h : Frac.Le a b
  · rw [if_pos h, max_eq_right ((Frac.le_iff ha hb).mp h)]
  · rw [if_neg h]
    rw [Frac.le_iff ha hb] at h
    rw [max_eq_left (le_of_not_le h)]

/-! ## Fold lemmas for `np.min` / `np.max` -/

theorem foldr_fmin_choice (init : Frac) (xs : List Frac) :
    xs.foldr Frac.fmin init = init ∨ xs.foldr Frac.fmin init ∈ xs := by
  induction xs with
  | nil => left; rfl
  | cons x xs ih =>
    rcases Frac.fmin_choice x (xs.foldr Frac.fmin init) with h | h
    · right; rw [List.foldr_cons, h]; exact List.mem_cons_self x xs
    · rw [List.foldr_cons, h]
      rcases ih with h2 | h2
      · left; exact h2
      · right; exact List.mem_cons_of_mem x h2

theorem foldr_fmax_choice (init : Frac) (xs : List Frac) :
    xs.foldr Frac.fmax init = init ∨ xs.foldr Frac.fmax init ∈ xs := by
  induction xs with
  | nil => left; rfl
  | cons x xs ih =>
    rcases Frac.fmax_choice x (xs.foldr Frac.fmax init) with h | h
    · right; rw [List.foldr_cons, h]; exact List.mem_cons_self x xs
    · rw [List.foldr_cons, h]
      rcases ih with h2 | h2
      · left; exact h2
      · right; exact List.mem_cons_of_mem x h2

theorem foldr_fmin_den_pos {init : Frac} {xs : List Frac} (hi : 0 < init.den)
    (hxs : DenPos xs) : 0 < (xs.foldr Frac.fmin init).den := by
  rcases foldr_fmin_choice init xs with h | h
  · rw [h]; exact hi
  · exact hxs _ h

theorem foldr_fmax_den_pos {init : Frac} {xs : List Frac} (hi : 0 < init.den)
    (hxs : DenPos xs) : 0 < (xs.foldr Frac.fmax init).den := by
  rcases foldr_fmax_choice init xs with h | h
  · rw [h]; exact hi
  · exact hxs _ h

theorem foldr_fmin_le_init {init : Frac} {xs : List Frac} (hi : 0 < init.den)
    (hxs : DenPos xs) : (xs.foldr Frac.fmin init).toRat ≤ init.toRat := by
  induction xs with
  | nil => exact le_refl _
  | cons x xs ih =>
    have hx : 0 < x.den := hxs x (List.mem_cons_self x xs)
    have hxs' : DenPos xs := fun y hy => hxs y (List.mem_cons_of_mem x hy)
    have hrest : 0 < (xs.foldr Frac.fmin init).den := foldr_fmin_den_pos hi hxs'
    rw [List.foldr_cons, Frac.toRat_fmin hx hrest]
    exact le_trans (min_le_right _ _) (ih hxs')

theorem init_le_foldr_fmax {init : Frac} {xs : List Frac} (hi : 0 < init.den)
    (hxs : DenPos xs) : init.toRat ≤ (xs.foldr Frac.fmax init).toRat := by
  induction xs with
  | nil => exact le_refl _
  | cons x xs ih =>
    have hx : 0 < x.den := hxs x (List.mem_cons_self x xs)
    have hxs' : DenPos xs := fun y hy => hxs y (List.mem_cons_of_mem x hy)
    have hrest : 0 < (xs.foldr Frac.fmax init).den := foldr_fmax_den_pos hi hxs'
    rw [List.foldr_cons, Frac.toRat_fmax hx hrest]
    exact le_trans (ih hxs') (le_max_right _ _)

theorem headD_mem {α : Type} (l : List α) (d : α) (h : l ≠ []) : l.headD d ∈ l := by
  cases l with
  | nil => exact absurd rfl h
  | cons x xs => exact List.mem_cons_self x xs

theorem listMin_den_pos {xs : List Frac} (hne : xs ≠ []) (hxs : DenPos xs) :
    0 < (listMin xs).den := by
  unfold listMin
  exact foldr_fmin_den_pos (hxs _ (headD_mem _ _ hne)) hxs

theorem listMax_den_pos {xs : List Frac} (hne : xs ≠ []) (hxs : DenPos xs) :
    0 < (listMax xs).den := by
  unfold listMax
  exact foldr_fmax_den_pos (hxs _ (headD_mem _ _ hne)) hxs

theorem listMin_le_listMax {xs : List Frac} (hne : xs ≠ []) (hxs : DenPos xs) :
    Frac.Le (listMin xs) (listMax xs) := by
  have hh : 0 < (xs.headD Frac.zero).den := hxs _ (headD_mem _ _ hne)
  rw [Frac.le_iff (listMin_den_pos hne hxs) (listMax_den_pos hne hxs)]
  exact le_trans (foldr_fmin_le_init hh hxs) (init_le_foldr_fmax hh hxs)

/-! ## Peak-finding lemmas -/

theorem takeWhile_getD {α : Type} (p : α → Bool) (l : List α) (i : ℕ) (d : α)
    (h : i < (l.takeWhile p).length) : (l.takeWhile p).getD i d = l.getD i d := by
  have hlen : i < l.length :=
    lt_of_lt_of_le h (List.Sublist.length_le (List.takeWhile_prefix p).sublist)
  rw [List.getD_eq_getElem _ _ h, List.getD_eq_getElem _ _ hlen]
  exact List.IsPrefix.getElem (List.takeWhile_prefix p) h

theorem takeWhile_getD_prop {α : Type} (p : α → Bool) (l : List α) (i : ℕ) (d : α)
    (h : i < (l.takeWhile p).length) : p ((l.takeWhile p).getD i d) = true := by
  rw [List.getD_eq_getElem _ _ h]
  exact List.mem_takeWhile_imp (List.getElem_mem h)

theorem getD_drop {α : Type} (l : List α) (n i : ℕ) (d : α) :
    (l.drop n).getD i d = l.getD (n + i) d := by
  simp [List.getD, List.getElem?_drop]

theorem runEnd_ge (xs : List Frac) (l : ℕ) : l ≤ runEnd xs l := Nat.le_add_right _ _

theorem runEnd_lt_length {xs : List Frac} {l : ℕ} (h : l < xs.length) :
    runEnd xs l < xs.length := by
  unfold runEnd
  have ht : ((xs.drop (l + 1)).takeWhile
      (fun y => decide (Frac.Eqv y (xs.getD l Frac.zero)))).length ≤ xs.length - (l + 1) := by
    calc _ ≤ (xs.drop (l + 1)).length :=
          List.Sublist.length_le (List.takeWhile_prefix _).sublist
      _ = xs.length - (l + 1) := List.length_drop _ _
  omega

theorem runEnd_spec {xs : List Frac} {l k : ℕ} (h1 : l ≤ k) (h2 : k ≤ runEnd xs l) :
    Frac.Eqv (xs.getD k Frac.zero) (xs.getD l Frac.zero) := by
  rcases Nat.eq_or_lt_of_le h1 with heq | hlt
  · rw [← heq]; exact Frac.eqv_refl _
  · have hj : k - l - 1 < ((xs.drop (l + 1)).takeWhile
        (fun y => decide (Frac.Eqv y (xs.getD l Frac.zero)))).length := by
      unfold runEnd at h2; omega
    have hv := takeWhile_getD_prop (fun y => decide (Frac.Eqv y (xs.getD l Frac.zero)))
      (xs.drop (l + 1)) (k - l - 1) Frac.zero hj
    rw [takeWhile_getD _ _ _ _ hj, getD_drop] at hv
    have hk : l + 1 + (k - l - 1) = k := by omega
    rw [hk] at hv
    exact of_decide_eq_true hv

theorem localMaxima_mem_spec {xs : List Frac} {p : ℕ} (hp : p ∈ localMaxima xs) :
    ∃ l, 1 ≤ l ∧ l < xs.length ∧
      Frac.Lt (xs.getD (l - 1) Frac.zero) (xs.getD l Frac.zero) ∧
      runEnd xs l + 2 ≤ xs.length ∧
      Frac.Lt (xs.getD (runEnd xs l + 1) Frac.zero) (xs.getD l Frac.zero) ∧
      p = (l + runEnd xs l) / 2 := by
  unfold localMaxima at hp
  rcases List.mem_filterMap.mp hp with ⟨l, hl, hfl⟩
  by_cases h1 : 1 ≤ l ∧ Frac.Lt (xs.getD (l - 1) Frac.zero) (xs.getD l Frac.zero)
  · rw [if_pos h1] at hfl
    by_cases h2 : runEnd xs l + 2 ≤ xs.length ∧
        Frac.Lt (xs.getD (runEnd xs l + 1) Frac.zero) (xs.getD l Frac.zero)
    · rw [if_pos h2] at hfl
      exact ⟨l, h1.1, List.mem_range.mp hl, h1.2, h2.1, h2.2, (Option.some_inj.mp hfl).symm⟩
    · rw [if_neg h2] at hfl; exact absurd hfl (Option.some_ne_none p).symm.elim
  · rw [if_neg h1] at hfl; exact absurd hfl (Option.some_ne_none p).symm.elim

theorem localMaxima_bounds {xs : List Frac} {p : ℕ} (hp : p ∈ localMaxima xs) :
    1 ≤ p ∧ p + 2 ≤ xs.length := by
  rcases localMaxima_mem_spec hp with ⟨l, h1, _, _, h4, _, h6⟩
  have := runEnd_ge xs l
  omega

theorem getD_den_pos {xs : List Frac} (hxs : DenPos xs) (k : ℕ) :
    0 < (xs.getD k Frac.zero).den := by
  by_cases hk : k < xs.length
  · rw [List.getD_eq_getElem _ _ hk]; exact hxs _ (List.getElem_mem hk)
  · rw [List.getD_eq_default _ _ (le_of_not_lt hk)]; norm_num [Frac.zero]

theorem localMaxima_pairwise {xs : List Frac} (hxs : DenPos xs) :
    List.Pairwise (· < ·) (localMaxima xs) := by
  unfold localMaxima
  refine List.Pairwise.filterMap _ ?_ (List.pairwise_lt_range _)
  intro l1 l2 hl12 m1 hm1 m2 hm2
  by_cases c1 : 1 ≤ l1 ∧ Frac.Lt (xs.getD (l1 - 1) Frac.zero) (xs.getD l1 Frac.zero)
  swap
  · rw [if_neg c1] at hm1; cases hm1
  rw [if_pos c1] at hm1
  by_cases c2 : runEnd xs l1 + 2 ≤ xs.length ∧
      Frac.Lt (xs.getD (runEnd xs l1 + 1) Frac.zero) (xs.getD l1 Frac.zero)
  swap
  · rw [if_neg c2] at hm1; cases hm1
  rw [if_pos c2] at hm1
  by_cases c3 : 1 ≤ l2 ∧ Frac.Lt (xs.getD (l2 - 1) Frac.zero) (xs.getD l2 Frac.zero)
  swap
  · rw [if_neg c3] at hm2; cases hm2
  rw [if_pos c3] at hm2
  by_cases c4 : runEnd xs l2 + 2 ≤ xs.length ∧
      Frac.Lt (xs.getD (runEnd xs l2 + 1) Frac.zero) (xs.getD l2 Frac.zero)
  swap
  · rw [if_neg c4] at hm2; cases hm2
  rw [if_pos c4] at hm2
  cases hm1; cases hm2
  have hkey : runEnd xs l1 < l2 := by
    by_contra hcon
    push_neg at hcon
    have e1 : Frac.Eqv (xs.getD (l2 - 1) Frac.zero) (xs.getD l1 Frac.zero) :=
      runEnd_spec (by omega) (by omega)
    have e2 : Frac.Eqv (xs.getD l2 Frac.zero) (xs.getD l1 Frac.zero) :=
      runEnd_spec (by omega) (by omega)
    have d1 := getD_den_pos hxs (l2 - 1)
    have d2 := getD_den_pos hxs l2
    have dl := getD_den_pos hxs l1
    rw [Frac.eqv_iff d1 dl] at e1
    rw [Frac.eqv_iff d2 dl] at e2
    have := (Frac.lt_iff d1 d2).mp c3.2
    rw [e1, e2] at this
    exact lt_irrefl _ this
  have := runEnd_ge xs l2
  omega

theorem localMaxima_nodup {xs : List Frac} (hxs : DenPos xs) :
    (localMaxima xs).Nodup :=
  (localMaxima_pairwise hxs).imp ne_of_lt

/-! ## Distance-selection lemmas -/

theorem mem_selectLoop {dist : ℕ} : ∀ {l removed : List ℕ} {x : ℕ},
    x ∈ selectLoop dist l removed → x ∈ l ∧ x ∉ removed := by
  intro l
  induction l with
  | nil => intro removed x hx; cases hx
  | cons p rest ih =>
    intro removed x hx
    unfold selectLoop at hx
    by_cases hp : p ∈ removed
    · rw [if_pos hp] at hx
      have := ih hx
      exact ⟨List.mem_cons_of_mem p this.1, this.2⟩
    · rw [if_neg hp] at hx
      rcases List.mem_cons.mp hx with hxp | hxr
      · subst hxp; exact ⟨List.mem_cons_self _ _, hp⟩
      · have := ih hxr
        refine ⟨List.mem_cons_of_mem p this.1, fun hc => this.2 ?_⟩
        exact List.mem_append_left _ hc

theorem selectLoop_dist {dist : ℕ} : ∀ {l removed : List ℕ} {x y : ℕ},
    x ∈ selectLoop dist l removed → y ∈ selectLoop dist l removed → x ≠ y →
      dist ≤ natDist x y := by
  intro l
  induction l with
  | nil => intro removed x y hx; cases hx
  | cons p rest ih =>
    intro removed x y hx hy hxy
    unfold selectLoop at hx hy
    by_cases hp : p ∈ removed
    · rw [if_pos hp] at hx hy
      exact ih hx hy hxy
    · rw [if_neg hp] at hx hy
      rcases List.mem_cons.mp hx with hxp | hxr <;> rcases List.mem_cons.mp hy with hyp | hyr
      · subst hxp; subst hyp; exact absurd rfl hxy
      · subst hxp
        have hm := mem_selectLoop hyr
        by_contra hcon
        push_neg at hcon
        exact hm.2 (List.mem_append_right _
          (List.mem_filter.mpr ⟨hm.1, decide_eq_true (by omega)⟩))
      · subst hyp
        have hm := mem_selectLoop hxr
        by_contra hcon
        push_neg at hcon
        have : natDist y x < dist := by unfold natDist at hcon ⊢; omega
        exact hm.2 (List.mem_append_right _
          (List.mem_filter.mpr ⟨hm.1, decide_eq_true this⟩))
      · exact ih hxr hyr hxy

/-! ## `find_peaks` lemmas -/

theorem mem_findPeaks {xs : List Frac} {hmin : Frac} {dist p : ℕ}
    (hp : p ∈ findPeaks xs hmin dist) :
    p ∈ localMaxima xs ∧ Frac.Le hmin (xs.getD p Frac.zero) ∧
      p ∈ selectLoop dist
        (List.insertionSort
          (fun a b => Frac.Le (xs.getD b Frac.zero) (xs.getD a Frac.zero))
          ((localMaxima xs).filter (fun q => decide (Frac.Le hmin (xs.getD q Frac.zero)))))
        [] := by
  unfold findPeaks at hp
  have h := List.mem_filter.mp hp
  have hb := h.2
  rw [Bool.and_eq_true] at hb
  exact ⟨h.1, of_decide_eq_true hb.1, of_decide_eq_true hb.2⟩

theorem findPeaks_nodup {xs : List Frac} (hxs : DenPos xs) (hmin : Frac) (dist : ℕ) :
    (findPeaks xs hmin dist).Nodup := by
  unfold findPeaks
  exact List.Pairwise.filter _ (localMaxima_nodup hxs)

theorem findPeaks_dist {xs : List Frac} {hmin : Frac} {dist p q : ℕ}
    (hp : p ∈ findPeaks xs hmin dist) (hq : q ∈ findPeaks xs hmin dist) (hpq : p ≠ q) :
    dist ≤ natDist p q :=
  selectLoop_dist (mem_findPeaks hp).2.2 (mem_findPeaks hq).2.2 hpq

/-! ## Strongest-two selection lemmas -/

theorem pickStrongestTwo_spec {xs : List Frac} {peaks : List ℕ}
    (hlen : 2 ≤ peaks.length) (hnd : peaks.Nodup) :
    (pickStrongestTwo xs peaks).1 ∈ peaks ∧ (pickStrongestTwo xs peaks).2 ∈ peaks ∧
      (pickStrongestTwo xs peaks).1 < (pickStrongestTwo xs peaks).2 := by
  unfold pickStrongestTwo
  have hperm := List.perm_insertionSort
    (fun a b => Frac.Le (xs.getD b Frac.zero) (xs.getD a Frac.zero)) peaks
  have hlen' : 2 ≤ (List.insertionSort
      (fun a b => Frac.Le (xs.getD b Frac.zero) (xs.getD a Frac.zero)) peaks).length := by
    rw [hperm.length_eq]; exact hlen
  set sorted := List.insertionSort
    (fun a b => Frac.Le (xs.getD b Frac.zero) (xs.getD a Frac.zero)) peaks with hsorted
  have h0 : (0 : ℕ) < sorted.length := by omega
  have h1 : (1 : ℕ) < sorted.length := by omega
  have ha : sorted.getD 0 0 = sorted[0] := List.getD_eq_getElem _ _ h0
  have hb : sorted.getD 1 0 = sorted[1] := List.getD_eq_getElem _ _ h1
  have ham : sorted.getD 0 0 ∈ peaks := by
    rw [ha]; exact hperm.mem_iff.mp (List.getElem_mem h0)
  have hbm : sorted.getD 1 0 ∈ peaks := by
    rw [hb]; exact hperm.mem_iff.mp (List.getElem_mem h1)
  have hne : sorted.getD 0 0 ≠ sorted.getD 1 0 := by
    rw [ha, hb]
    have hnds : sorted.Nodup := hperm.nodup_iff.mpr hnd
    intro hc
    have := List.pairwise_iff_getElem.mp hnds 0 1 h0 h1 (by omega)
    exact this hc
  refine ⟨?_, ?_, ?_⟩
  · rcases min_choice (sorted.getD 0 0) (sorted.getD 1 0) with h | h <;> rw [h]
    · exact ham
    · exact hbm
  · rcases max_choice (sorted.getD 0 0) (sorted.getD 1 0) with h | h <;> rw [h]
    · exact ham
    · exact hbm
  · exact min_lt_max.mpr hne

/-! ## Denominator positivity along the pipeline -/

theorem foldr_add_den_one {l : List Frac} (h : ∀ x ∈ l, x.den = 1) :
    (l.foldr Frac.add Frac.zero).den = 1 := by
  induction l with
  | nil => rfl
  | cons x xs ih =>
    rw [List.foldr_cons]
    show x.den * (xs.foldr Frac.add Frac.zero).den = 1
    rw [h x (List.mem_cons_self x xs), ih (fun y hy => h y (List.mem_cons_of_mem x hy)),
      one_mul]

theorem colMean_den (img : Img) (c : ℕ) (chan : RGB → ℕ) :
    (colMean img c chan).den = (height img : ℤ) := by
  unfold colMean
  show (_ * _ : ℤ) = _
  rw [foldr_add_den_one (by
    intro x hx
    rcases List.mem_map.mp hx with ⟨row, _, hrow⟩
    rw [← hrow]
    rfl)]
  rw [one_mul]
  rfl

theorem colGray_den_pos {img : Img} (h : img ≠ []) (c : ℕ) : 0 < (colGray img c).den := by
  have hh : (0 : ℤ) < (height img : ℤ) := by
    have : 0 < img.length := List.length_pos.mpr h
    exact_mod_cast this
  unfold colGray
  show 0 < (_ * _ : ℤ)
  apply mul_pos
  · show 0 < ((_ * _) * _ : ℤ)
    apply mul_pos
    · apply mul_pos <;> rw [colMean_den] <;> exact hh
    · rw [colMean_den]; exact hh
  · norm_num [Frac.ofNat]

theorem grayProfile_denPos {img : Img} (h : img ≠ []) : DenPos (grayProfile img) := by
  intro x hx
  rcases List.mem_map.mp hx with ⟨c, _, hc⟩
  rw [← hc]
  exact colGray_den_pos h c

theorem normalize_denPos {xs : List Frac} (hne : xs ≠ []) (hxs : DenPos xs) :
    DenPos (normalize xs) := by
  intro y hy
  rcases List.mem_map.mp hy with ⟨v, hv, hvy⟩
  have hle := listMin_le_listMax hne hxs
  have hM := listMax_den_pos hne hxs
  have hm := listMin_den_pos hne hxs
  have hvden := hxs v hv
  rw [← hvy]
  show 0 < ((v.den * (listMin xs).den) *
    (((listMax xs).num * (listMin xs).den - (listMin xs).num * (listMax xs).den) *
        epsTiny.den + epsTiny.num * ((listMax xs).den * (listMin xs).den)) : ℤ)
  unfold Frac.Le at hle
  have h1 : (0 : ℤ) < v.den * (listMin xs).den := mul_pos hvden hm
  have h2 : (0 : ℤ) ≤ ((listMax xs).num * (listMin xs).den -
      (listMin xs).num * (listMax xs).den) * epsTiny.den := by
    apply mul_nonneg (by omega)
    norm_num [epsTiny]
  have h3 : (0 : ℤ) < epsTiny.num * ((listMax xs).den * (listMin xs).den) := by
    have : (0 : ℤ) < (listMax xs).den * (listMin xs).den := mul_pos hM hm
    simpa [epsTiny] using this
  exact mul_pos h1 (by omega)

theorem npGradient_denPos {xs : List Frac} (hxs : DenPos xs) : DenPos (npGradient xs) := by
  intro y hy
  rcases List.mem_map.mp hy with ⟨i, _, hiy⟩
  rw [← hiy]
  split
  · exact mul_pos (getD_den_pos hxs 1) (getD_den_pos hxs 0)
  · split
    · exact mul_pos (getD_den_pos hxs _) (getD_den_pos hxs _)
    · show 0 < ((_ * _) * _ : ℤ)
      apply mul_pos (mul_pos (getD_den_pos hxs _) (getD_den_pos hxs _))
      norm_num [Frac.ofNat]

theorem map_fabs_denPos {xs : List Frac} (hxs : DenPos xs) : DenPos (xs.map Frac.fabs) := by
  intro y hy
  rcases List.mem_map.mp hy with ⟨x, hx, hxy⟩
  rw [← hxy]
  exact hxs x hx

theorem zeroFrom_denPos {xs : List Frac} (hxs : DenPos xs) (iR : ℕ) :
    DenPos (zeroFrom xs iR) := by
  intro y hy
  rcases List.mem_map.mp hy with ⟨i, _, hiy⟩
  rw [← hiy]
  split
  · exact getD_den_pos hxs i
  · norm_num [Frac.zero]

theorem width_pos_ne_nil {img : Img} (hw : 1 ≤ width img) : img ≠ [] := by
  intro h
  rw [h] at hw
  simp [width] at hw

theorem modified_denPos {img : Img} (hw : 1 ≤ width img) : DenPos (modifiedOf img) := by
  have hne : img ≠ [] := width_pos_ne_nil hw
  have hprof : grayProfile img ≠ [] := by
    unfold grayProfile
    intro h
    have := congrArg List.length h
    simp at this
    omega
  exact zeroFrom_denPos (map_fabs_denPos (npGradient_denPos
    (normalize_denPos hprof (grayProfile_denPos hne)))) _

/-! ## The modified gradient and its peaks -/

theorem modified_length (img : Img) : (modifiedOf img).length = width img := by
  simp [modifiedOf, zeroFrom, npGradient, normProfile, normalize, grayProfile]

theorem modified_zero_beyond (img : Img) (i : ℕ) (hi : ignoreRight (width img) ≤ i) :
    (modifiedOf img).getD i Frac.zero = Frac.zero := by
  by_cases hlen : i < (modifiedOf img).length
  · rw [List.getD_eq_getElem _ _ hlen]
    unfold modifiedOf zeroFrom
    unfold modifiedOf zeroFrom at hlen
    simp only [List.getElem_map, List.getElem_range, List.length_map, List.length_range] at hlen ⊢
    rw [if_neg (by omega)]
  · exact List.getD_eq_default _ _ (le_of_not_lt hlen)

theorem peaksOf_lt_ignoreRight {img : Img} {p : ℕ} (hp : p ∈ peaksOf img) :
    p < ignoreRight (width img) := by
  have hm := mem_findPeaks hp
  by_contra hcon
  push_neg at hcon
  have hval := modified_zero_beyond img p hcon
  have hle := hm.2.1
  rw [hval] at hle
  norm_num [Frac.Le, tenth, Frac.zero] at hle

theorem peak_branch {img : Img} (hw : 2 ≤ width img) (hp : 2 ≤ (peaksOf img).length) :
    detectEdges img = some ((pickStrongestTwo (modifiedOf img) (peaksOf img)).1,
      (pickStrongestTwo (modifiedOf img) (peaksOf img)).2) ∧
    (pickStrongestTwo (modifiedOf img) (peaksOf img)).1 ∈ peaksOf img ∧
    (pickStrongestTwo (modifiedOf img) (peaksOf img)).2 ∈ peaksOf img ∧
    (pickStrongestTwo (modifiedOf img) (peaksOf img)).1 <
      (pickStrongestTwo (modifiedOf img) (peaksOf img)).2 ∧
    (pickStrongestTwo (modifiedOf img) (peaksOf img)).2 < ignoreRight (width img) := by
  have hdp : DenPos (modifiedOf img) := modified_denPos (by omega)
  have hnd : (peaksOf img).Nodup := findPeaks_nodup hdp _ _
  have hspec := @pickStrongestTwo_spec (modifiedOf img) (peaksOf img) hp hnd
  have hr : (pickStrongestTwo (modifiedOf img) (peaksOf img)).2 < ignoreRight (width img) :=
    peaksOf_lt_ignoreRight hspec.2.1
  refine ⟨?_, hspec.1, hspec.2.1, hspec.2.2, hr⟩
  unfold detectEdges
  rw [if_neg (by omega), if_pos hp, min_eq_left (le_of_lt hr)]

/-! ## Claims C1, C7, C10: the Edge Detector -/

set_option maxRecDepth 1000000

theorem div_bound_aux {w : ℕ} (h5 : 5 ≤ w) : 3 * w / 4 < 9 * w / 10 := by
  have hx : 4 * (3 * w / 4) ≤ 3 * w := by omega
  have hy : 9 * w ≤ 10 * (9 * w / 10) + 9 := by omega
  by_contra hcon
  push_neg at hcon
  have h10 : 10 * (9 * w / 10) ≤ 10 * (3 * w / 4) := by omega
  have h6 : w ≤ 6 := by omega
  interval_cases w <;> omega

/-- C1, counterexample: on a flat 4-pixel-wide image the fallback returns
`(1, 3)` with `left ≠ right`, but `3` exceeds `⌊0.9·4⌋ − 1 = 2`, so the
claimed bound `right_edge ≤ ⌊0.9·width⌋ − 1` (whose only allowed exception
is `left = right`) fails. -/
theorem edge_bounds_claim_cex :
    detectEdges (grayImage 4 1 100) = some (1, 3) ∧ 1 ≠ 3 ∧
      ¬(3 ≤ ignoreRight (width (grayImage 4 1 100)) - 1) := by
  decide

/-- C1 (amended): for width < 2 the detector raises (`none`); for width
≥ 2 it returns `0 ≤ left < right ≤ ⌊0.9·width⌋`, where `right` is strictly
below `⌊0.9·width⌋` whenever ≥ 2 peaks are found, and the fallback can
reach `right = ⌊0.9·width⌋` only for widths ≤ 4.  `left = right` never
occurs. -/
theorem edge_bounds_amended (img : Img) :
    (width img < 2 → detectEdges img = none) ∧
    (2 ≤ width img → ∃ l r, detectEdges img = some (l, r) ∧ l < r ∧
      r ≤ ignoreRight (width img) ∧
      (2 ≤ (peaksOf img).length → r < ignoreRight (width img)) ∧
      (ignoreRight (width img) ≤ r → width img ≤ 4)) := by
  constructor
  · intro h
    unfold detectEdges
    rw [if_pos h]
  · intro hw
    by_cases hp : 2 ≤ (peaksOf img).length
    · obtain ⟨he, _, _, hlr, hr⟩ := peak_branch hw hp
      exact ⟨_, _, he, hlr, le_of_lt hr, fun _ => hr,
        fun hc => absurd (lt_of_le_of_lt hc hr) (lt_irrefl _)⟩
    · refine ⟨width img / 4, min (3 * width img / 4) (ignoreRight (width img)), ?_, ?_, ?_,
        fun h => absurd h hp, ?_⟩
      · unfold detectEdges
        rw [if_neg (by omega), if_neg hp]
      · unfold ignoreRight
        omega
      · exact min_le_right _ _
      · intro hc
        have h := le_trans hc (min_le_left _ _)
        unfold ignoreRight at h
        by_contra hc4
        push_neg at hc4
        exact absurd h (not_le_of_lt (div_bound_aux hc4))

/-- C1 witness: the amended statement evaluated on a flat 10-wide image
(fallback edges `(2, 7)`, boundary `⌊0.9·10⌋ = 9`). -/
theorem edge_bounds_amended_witness :
    2 ≤ width (grayImage 10 1 7) ∧
    (∃ l r, detectEdges (grayImage 10 1 7) = some (l, r) ∧ l < r ∧
      r ≤ ignoreRight (width (grayImage 10 1 7)) ∧
      (2 ≤ (peaksOf (grayImage 10 1 7)).length →
        r < ignoreRight (width (grayImage 10 1 7))) ∧
      (ignoreRight (width (grayImage 10 1 7)) ≤ r → width (grayImage 10 1 7) ≤ 4)) :=
  ⟨by decide, (edge_bounds_amended (grayImage 10 1 7)).2 (by decide)⟩

/-- C7 (confirmed): with ≥ 2 peaks, both selected edges are peak positions
of the modified gradient, whose entries at or beyond `⌊0.9·width⌋` are all
zero; hence both edges lie strictly below `⌊0.9·width⌋` and the defensive
clamp `min right ⌊0.9·width⌋` is the identity. -/
theorem peaks_below_boundary (img : Img) (hw : 2 ≤ width img)
    (hp : 2 ≤ (peaksOf img).length) :
    ∃ l r, detectEdges img = some (l, r) ∧ l ∈ peaksOf img ∧ r ∈ peaksOf img ∧
      (∀ i, ignoreRight (width img) ≤ i → (modifiedOf img).getD i Frac.zero = Frac.zero) ∧
      l < ignoreRight (width img) ∧ r < ignoreRight (width img) ∧
      min r (ignoreRight (width img)) = r := by
  obtain ⟨he, hl, hr, _, hrb⟩ := peak_branch hw hp
  exact ⟨_, _, he, hl, hr, modified_zero_beyond img, peaksOf_lt_ignoreRight hl, hrb,
    min_eq_left (le_of_lt hrb)⟩

/-- C7 witness: the two-step image has peaks `[4, 25]`; the detector
returns `(4, 25)` with the clamp a no-op below `⌊0.9·30⌋ = 27`. -/
theorem peaks_below_boundary_witness :
    2 ≤ width twoStepImg ∧ 2 ≤ (peaksOf twoStepImg).length ∧
    (∃ l r, detectEdges twoStepImg = some (l, r) ∧ l ∈ peaksOf twoStepImg ∧
      r ∈ peaksOf twoStepImg ∧
      (∀ i, ignoreRight (width twoStepImg) ≤ i →
        (modifiedOf twoStepImg).getD i Frac.zero = Frac.zero) ∧
      l < ignoreRight (width twoStepImg) ∧ r < ignoreRight (width twoStepImg) ∧
      min r (ignoreRight (width twoStepImg)) = r) :=
  ⟨by decide, by decide, peaks_below_boundary twoStepImg (by decide) (by decide)⟩

/-- C10 (confirmed): with ≥ 2 peaks the returned edges are two distinct
detected peak positions, any two detected peaks are ≥ 20 columns apart,
and therefore the spectrum width `right − left` is at least 20. -/
theorem peak_edges_distance (img : Img) (hw : 2 ≤ width img)
    (hp : 2 ≤ (peaksOf img).length) :
    ∃ l r, detectEdges img = some (l, r) ∧ l ∈ peaksOf img ∧ r ∈ peaksOf img ∧ l ≠ r ∧
      (∀ p q, p ∈ peaksOf img → q ∈ peaksOf img → p ≠ q → 20 ≤ natDist p q) ∧
      20 ≤ r - l := by
  obtain ⟨he, hl, hr, hlr, _⟩ := peak_branch hw hp
  refine ⟨_, _, he, hl, hr, ne_of_lt hlr, fun p q hp' hq' hpq => findPeaks_dist hp' hq' hpq, ?_⟩
  have := findPeaks_dist hl hr (ne_of_lt hlr)
  unfold natDist at this
  omega

/-- C10 witness: on the two-step image the peaks are 21 columns apart and
the detected spectrum width is 21 ≥ 20. -/
theorem peak_edges_distance_witness :
    2 ≤ width twoStepImg ∧ 2 ≤ (peaksOf twoStepImg).length ∧
    (∃ l r, detectEdges twoStepImg = some (l, r) ∧ l ∈ peaksOf twoStepImg ∧
      r ∈ peaksOf twoStepImg ∧ l ≠ r ∧
      (∀ p q, p ∈ peaksOf twoStepImg → q ∈ peaksOf twoStepImg → p ≠ q → 20 ≤ natDist p q) ∧
      20 ≤ r - l) :=
  ⟨by decide, by decide, peak_edges_distance twoStepImg (by decide) (by decide)⟩

/-! ## Claims C2, C3: the Sector Analyzer -/

theorem sectorBoundary_eq {l r N : ℕ} (hlr : l ≤ r) (hN : 1 ≤ N) (i : ℕ) :
    sectorBoundary l r N i = l + i * (r - l) / N := by
  unfold sectorBoundary sectorWidth Frac.floorNat Frac.add Frac.mul Frac.div Frac.sub Frac.ofNat
  simp only [mul_one, one_mul]
  have hcast : (r : ℤ) - (l : ℤ) = ((r - l : ℕ) : ℤ) := by omega
  rw [hcast]
  have hnum : ((l : ℤ) * (N : ℤ) + (i : ℤ) * ((r - l : ℕ) : ℤ)) =
      ((i * (r - l) + N * l : ℕ) : ℤ) := by push_cast; ring
  rw [hnum]
  rw [Int.fdiv_eq_tdiv (by positivity) (by positivity), ← Int.ofNat_tdiv, Int.toNat_ofNat]
  rw [Nat.add_mul_div_left _ _ (by omega), add_comm]

/-! ### Correctness of the binary64 rounding model -/

theorem toRat_mul (x y : Frac) : (Frac.mul x y).toRat = x.toRat * y.toRat := by
  unfold Frac.mul Frac.toRat
  push_cast
  rw [div_mul_div_comm]

theorem toRat_add {x y : Frac} (hx : x.den ≠ 0) (hy : y.den ≠ 0) :
    (Frac.add x y).toRat = x.toRat + y.toRat := by
  unfold Frac.add Frac.toRat
  have hx' : (x.den : ℚ) ≠ 0 := by exact_mod_cast hx
  have hy' : (y.den : ℚ) ≠ 0 := by exact_mod_cast hy
  push_cast
  field_simp

theorem toRat_div (x y : Frac) : (Frac.div x y).toRat = x.toRat / y.toRat := by
  unfold Frac.div Frac.toRat
  push_cast
  by_cases hx : (x.den : ℚ) = 0
  · rw [hx]
    simp
  by_cases hy : (y.num : ℚ) = 0
  · rw [hy]
    simp
  by_cases hyd : (y.den : ℚ) = 0
  · rw [hyd]
    simp
  field_simp

theorem toRat_nonneg {x : Frac} (hn : 0 ≤ x.num) (hd : 0 < x.den) : 0 ≤ x.toRat := by
  unfold Frac.toRat
  have h1 : (0:ℚ) ≤ (x.num : ℚ) := by exact_mod_cast hn
  have h2 : (0:ℚ) < (x.den : ℚ) := by exact_mod_cast hd
  positivity

theorem toRat_pos_iff {x : Frac} (hd : 0 < x.den) : 0 < x.toRat ↔ 0 < x.num := by
  unfold Frac.toRat
  have h2 : (0:ℚ) < (x.den : ℚ) := by exact_mod_cast hd
  rw [div_pos_iff]
  constructor
  · rintro (⟨h, -⟩ | ⟨-, h⟩)
    · exact_mod_cast h
    · exact absurd h2 (by exact not_lt_of_lt h)
  · intro h
    exact Or.inl ⟨by exact_mod_cast h, h2⟩

theorem toRat_eq_zero_iff {x : Frac} (hd : 0 < x.den) : x.toRat = 0 ↔ x.num = 0 := by
  unfold Frac.toRat
  have h2 : (x.den : ℚ) ≠ 0 := by
    have : (0:ℚ) < (x.den : ℚ) := by exact_mod_cast hd
    exact this.ne'
  rw [div_eq_zero_iff]
  constructor
  · rintro (h | h)
    · exact_mod_cast h
    · exact absurd h h2
  · intro h
    exact Or.inl (by exact_mod_cast h)

theorem findExpUp_spec : ∀ (fuel a b : ℕ), 0 < b → b ≤ a → a < b * 2 ^ fuel →
    b * 2 ^ findExpUp fuel a b ≤ a ∧ a < b * 2 ^ (findExpUp fuel a b + 1) := by
  intro fuel
  induction fuel with
  | zero =>
    intro a b hb hba hlt
    rw [pow_zero, mul_one] at hlt
    omega
  | succ f ih =>
    intro a b hb hba hlt
    rw [show findExpUp (f + 1) a b =
      (if b * 2 ≤ a then findExpUp f a (b * 2) + 1 else 0) from rfl]
    by_cases h2 : b * 2 ≤ a
    · rw [if_pos h2]
      have ihr := ih a (b * 2) (by omega) h2 (by
        calc a < b * 2 ^ (f + 1) := hlt
          _ = b * 2 * 2 ^ f := by ring)
      constructor
      · calc b * 2 ^ (findExpUp f a (b * 2) + 1)
            = b * 2 * 2 ^ findExpUp f a (b * 2) := by ring
          _ ≤ a := ihr.1
      · calc a < b * 2 * 2 ^ (findExpUp f a (b * 2) + 1) := ihr.2
          _ = b * 2 ^ (findExpUp f a (b * 2) + 1 + 1) := by ring
    · rw [if_neg h2]
      constructor
      · rw [pow_zero, mul_one]
        exact hba
      · rw [pow_one]
        omega

theorem findExpDown_spec : ∀ (fuel a b : ℕ), 0 < a → a < b → b ≤ a * 2 ^ fuel →
    b ≤ a * 2 ^ findExpDown fuel a b ∧ a * 2 ^ findExpDown fuel a b < b * 2 := by
  intro fuel
  induction fuel with
  | zero =>
    intro a b ha hab hle
    rw [pow_zero, mul_one] at hle
    omega
  | succ f ih =>
    intro a b ha hab hle
    rw [show findExpDown (f + 1) a b =
      (if b ≤ a * 2 then 1 else findExpDown f (a * 2) b + 1) from rfl]
    by_cases h2 : b ≤ a * 2
    · rw [if_pos h2]
      rw [pow_one]
      omega
    · rw [if_neg h2]
      have ihr := ih (a * 2) b (by omega) (by omega) (by
        calc b ≤ a * 2 ^ (f + 1) := hle
          _ = a * 2 * 2 ^ f := by ring)
      constructor
      · calc b ≤ a * 2 * 2 ^ findExpDown f (a * 2) b := ihr.1
          _ = a * 2 ^ (findExpDown f (a * 2) b + 1) := by ring
      · calc a * 2 ^ (findExpDown f (a * 2) b + 1)
            = a * 2 * 2 ^ findExpDown f (a * 2) b := by ring
          _ < b * 2 := ihr.2

theorem roundHalfEven_spec (a b : ℕ) (hb : 0 < b) :
    ((a : ℚ) / b - 1 / 2 ≤ roundHalfEven a b ∧
      (roundHalfEven a b : ℚ) ≤ (a : ℚ) / b + 1 / 2) ∧
    (((roundHalfEven a b : ℚ) = (a : ℚ) / b + 1 / 2 ∨
        (roundHalfEven a b : ℚ) = (a : ℚ) / b - 1 / 2) →
      roundHalfEven a b % 2 = 0) := by
  have hq : (0 : ℚ) < (b : ℚ) := by exact_mod_cast hb
  have hmod : b * (a / b) + a % b = a := Nat.div_add_mod a b
  have hrlt : a % b < b := Nat.mod_lt _ hb
  have hsplit : ((a : ℚ)) = ((a / b : ℕ) : ℚ) * b + ((a % b : ℕ) : ℚ) := by
    exact_mod_cast (Nat.div_add_mod' a b).symm
  have hval : (a : ℚ) / b = ((a / b : ℕ) : ℚ) + ((a % b : ℕ) : ℚ) / b := by
    rw [hsplit]
    field_simp
  have hfr0 : (0 : ℚ) ≤ ((a % b : ℕ) : ℚ) / b := by positivity
  have hfr1 : ((a % b : ℕ) : ℚ) / b < 1 := by
    rw [div_lt_one hq]
    exact_mod_cast hrlt
  unfold roundHalfEven
  by_cases h1 : 2 * (a % b) < b
  · have hlt : ((a % b : ℕ) : ℚ) / b < 1 / 2 := by
      rw [div_lt_div_iff hq (by norm_num)]
      have hc : ((a % b : ℕ) : ℚ) * 2 < b := by
        exact_mod_cast (by omega : (a % b) * 2 < b)
      linarith
    rw [if_pos h1, hval]
    refine ⟨⟨by linarith, by linarith⟩, ?_⟩
    rintro (h | h) <;> exfalso <;> [linarith; linarith]
  · rw [if_neg h1]
    by_cases h2 : b < 2 * (a % b)
    · have hgt : (1 : ℚ) / 2 < ((a % b : ℕ) : ℚ) / b := by
        rw [div_lt_div_iff (by norm_num) hq]
        have hc : (b : ℚ) < ((a % b : ℕ) : ℚ) * 2 := by
          exact_mod_cast (by omega : b < (a % b) * 2)
        linarith
      rw [if_pos h2, hval]
      push_cast
      refine ⟨⟨by linarith, by linarith⟩, ?_⟩
      rintro (h | h) <;> exfalso <;> [linarith; linarith]
    · have heq : ((a % b : ℕ) : ℚ) / b = 1 / 2 := by
        rw [div_eq_div_iff hq.ne' (by norm_num : (2:ℚ) ≠ 0)]
        have hc : ((a % b : ℕ) : ℚ) * 2 = b := by
          exact_mod_cast (by omega : (a % b) * 2 = b)
        linarith
      rw [if_neg h2]
      by_cases h3 : (a / b) % 2 = 0
      · rw [if_pos h3, hval, heq]
        refine ⟨⟨by linarith, by linarith⟩, fun _ => h3⟩
      · rw [if_neg h3, hval, heq]
        push_cast
        refine ⟨⟨by linarith, by linarith⟩, fun _ => by omega⟩

theorem round_m_bounds {m : ℕ} {x : ℚ} (h1 : x - 1 / 2 ≤ m) (h2 : (m : ℚ) ≤ x + 1 / 2)
    (hx1 : 2 ^ 52 ≤ x) (hx2 : x < 2 ^ 53) : 2 ^ 52 ≤ m ∧ m ≤ 2 ^ 53 := by
  constructor
  · have hc : ((2 ^ 52 - 1 : ℕ) : ℚ) < m := by push_cast; linarith
    have hc2 : (2 ^ 52 - 1 : ℕ) < m := by exact_mod_cast hc
    omega
  · have hc : (m : ℚ) < ((2 ^ 53 + 1 : ℕ) : ℚ) := by push_cast; linarith
    have hc2 : m < 2 ^ 53 + 1 := by exact_mod_cast hc
    omega

theorem flPos_spec {a b : ℕ} (ha : 0 < a) (hb : 0 < b)
    (hup : a < b * 2 ^ 1100) (hdown : b ≤ a * 2 ^ 1100) :
    ∃ (m : ℕ) (e : ℤ),
      (flPos a b).toRat = (m : ℚ) * (2 : ℚ) ^ (e - 52) ∧
      2 ^ 52 ≤ m ∧ m ≤ 2 ^ 53 ∧
      ((a : ℚ) / b * (2 : ℚ) ^ (52 - e) - 1 / 2 ≤ m ∧
        (m : ℚ) ≤ (a : ℚ) / b * (2 : ℚ) ^ (52 - e) + 1 / 2) ∧
      (((m : ℚ) = (a : ℚ) / b * (2 : ℚ) ^ (52 - e) + 1 / 2 ∨
          (m : ℚ) = (a : ℚ) / b * (2 : ℚ) ^ (52 - e) - 1 / 2) → m % 2 = 0) ∧
      (2 : ℚ) ^ e ≤ (a : ℚ) / b ∧ (a : ℚ) / b < (2 : ℚ) ^ (e + 1) := by
  have hbq : (0 : ℚ) < (b : ℚ) := by exact_mod_cast hb
  unfold flPos
  by_cases hba : b ≤ a
  · rw [if_pos hba]
    obtain ⟨hexp1, hexp2⟩ := findExpUp_spec 1100 a b hb hba hup
    have hlo : (2 : ℚ) ^ ((findExpUp 1100 a b : ℕ) : ℤ) ≤ (a : ℚ) / b := by
      rw [zpow_natCast, le_div_iff hbq]
      calc (2 : ℚ) ^ findExpUp 1100 a b * b = ((b * 2 ^ findExpUp 1100 a b : ℕ) : ℚ) := by
            push_cast; ring
        _ ≤ a := by exact_mod_cast hexp1
    have hhi : (a : ℚ) / b < (2 : ℚ) ^ (((findExpUp 1100 a b : ℕ) : ℤ) + 1) := by
      rw [show (((findExpUp 1100 a b : ℕ) : ℤ) + 1) = ((findExpUp 1100 a b + 1 : ℕ) : ℤ)
        from by push_cast; ring, zpow_natCast, div_lt_iff hbq]
      calc (a : ℚ) < ((b * 2 ^ (findExpUp 1100 a b + 1) : ℕ) : ℚ) := by exact_mod_cast hexp2
        _ = (2 : ℚ) ^ (findExpUp 1100 a b + 1) * b := by push_cast; ring
    by_cases he : findExpUp 1100 a b ≤ 52
    · rw [if_pos he]
      refine ⟨roundHalfEven (a * 2 ^ (52 - findExpUp 1100 a b)) b,
        ((findExpUp 1100 a b : ℕ) : ℤ), ?_⟩
      have hsz : ((52 : ℤ) - ((findExpUp 1100 a b : ℕ) : ℤ)) =
          ((52 - findExpUp 1100 a b : ℕ) : ℤ) := by omega
      have hx : ((a * 2 ^ (52 - findExpUp 1100 a b) : ℕ) : ℚ) / b =
          (a : ℚ) / b * (2 : ℚ) ^ ((52 : ℤ) - ((findExpUp 1100 a b : ℕ) : ℤ)) := by
        rw [hsz, zpow_natCast]
        push_cast
        ring
      obtain ⟨⟨hr1, hr2⟩, hrt⟩ := roundHalfEven_spec (a * 2 ^ (52 - findExpUp 1100 a b)) b hb
      rw [hx] at hr1 hr2 hrt
      have hxlo : (2 : ℚ) ^ 52 ≤ (a : ℚ) / b * (2 : ℚ) ^ ((52 : ℤ) -
          ((findExpUp 1100 a b : ℕ) : ℤ)) := by
        rw [← hx, le_div_iff hbq]
        calc (2 : ℚ) ^ 52 * b = ((b * 2 ^ 52 : ℕ) : ℚ) := by push_cast; ring
          _ ≤ ((a * 2 ^ (52 - findExpUp 1100 a b) : ℕ) : ℚ) := by
            have : b * 2 ^ 52 ≤ a * 2 ^ (52 - findExpUp 1100 a b) := by
              calc b * 2 ^ 52 = b * 2 ^ findExpUp 1100 a b * 2 ^ (52 - findExpUp 1100 a b) := by
                    rw [mul_assoc, ← pow_add,
                      show findExpUp 1100 a b + (52 - findExpUp 1100 a b) = 52 from by omega]
                _ ≤ a * 2 ^ (52 - findExpUp 1100 a b) :=
                    Nat.mul_le_mul_right _ hexp1
            exact_mod_cast this
      have hxhi : (a : ℚ) / b * (2 : ℚ) ^ ((52 : ℤ) - ((findExpUp 1100 a b : ℕ) : ℤ)) <
          (2 : ℚ) ^ 53 := by
        rw [← hx, div_lt_iff hbq]
        calc ((a * 2 ^ (52 - findExpUp 1100 a b) : ℕ) : ℚ)
            < ((b * 2 ^ 53 : ℕ) : ℚ) := by
              have : a * 2 ^ (52 - findExpUp 1100 a b) < b * 2 ^ 53 := by
                calc a * 2 ^ (52 - findExpUp 1100 a b)
                    < b * 2 ^ (findExpUp 1100 a b + 1) * 2 ^ (52 - findExpUp 1100 a b) :=
                      (Nat.mul_lt_mul_right (Nat.pos_pow_of_pos _ (by omega))).mpr hexp2
                  _ = b * 2 ^ 53 := by
                      rw [mul_assoc, ← pow_add,
                        show findExpUp 1100 a b + 1 + (52 - findExpUp 1100 a b) = 53
                          from by omega]
              exact_mod_cast this
          _ = (2 : ℚ) ^ 53 * b := by push_cast; ring
      obtain ⟨hm1, hm2⟩ := round_m_bounds hr1 hr2 hxlo hxhi
      refine ⟨?_, hm1, hm2, ⟨hr1, hr2⟩, hrt, hlo, hhi⟩
      · show ((roundHalfEven (a * 2 ^ (52 - findExpUp 1100 a b)) b : ℤ) : ℚ) /
          (((2 ^ (52 - findExpUp 1100 a b) : ℕ) : ℤ) : ℚ) = _
        rw [show (((findExpUp 1100 a b : ℕ) : ℤ) - 52) =
          -((52 - findExpUp 1100 a b : ℕ) : ℤ) from by omega, zpow_neg, zpow_natCast]
        push_cast
        rw [div_eq_mul_inv]
    · rw [if_neg he]
      refine ⟨roundHalfEven a (b * 2 ^ (findExpUp 1100 a b - 52)),
        ((findExpUp 1100 a b : ℕ) : ℤ), ?_⟩
      have hBpos : 0 < b * 2 ^ (findExpUp 1100 a b - 52) :=
        Nat.mul_pos hb (Nat.pos_pow_of_pos _ (by omega))
      have hBq : (0 : ℚ) < ((b * 2 ^ (findExpUp 1100 a b - 52) : ℕ) : ℚ) := by
        exact_mod_cast hBpos
      have hx : (a : ℚ) / ((b * 2 ^ (findExpUp 1100 a b - 52) : ℕ) : ℚ) =
          (a : ℚ) / b * (2 : ℚ) ^ ((52 : ℤ) - ((findExpUp 1100 a b : ℕ) : ℤ)) := by
        rw [show ((52 : ℤ) - ((findExpUp 1100 a b : ℕ) : ℤ)) =
          -((findExpUp 1100 a b - 52 : ℕ) : ℤ) from by omega, zpow_neg, zpow_natCast]
        push_cast
        rw [← div_eq_mul_inv, div_div]
      obtain ⟨⟨hr1, hr2⟩, hrt⟩ :=
        roundHalfEven_spec a (b * 2 ^ (findExpUp 1100 a b - 52)) hBpos
      rw [hx] at hr1 hr2 hrt
      have hxlo : (2 : ℚ) ^ 52 ≤ (a : ℚ) / b * (2 : ℚ) ^ ((52 : ℤ) -
          ((findExpUp 1100 a b : ℕ) : ℤ)) := by
        rw [← hx, le_div_iff hBq]
        calc (2 : ℚ) ^ 52 * ((b * 2 ^ (findExpUp 1100 a b - 52) : ℕ) : ℚ)
            = ((b * 2 ^ findExpUp 1100 a b : ℕ) : ℚ) := by
              rw [show b * 2 ^ findExpUp 1100 a b =
                b * 2 ^ (findExpUp 1100 a b - 52) * 2 ^ 52 from by
                  rw [mul_assoc, ← pow_add,
                    show findExpUp 1100 a b - 52 + 52 = findExpUp 1100 a b from by omega]]
              push_cast
              ring
          _ ≤ a := by exact_mod_cast hexp1
      have hxhi : (a : ℚ) / b * (2 : ℚ) ^ ((52 : ℤ) - ((findExpUp 1100 a b : ℕ) : ℤ)) <
          (2 : ℚ) ^ 53 := by
        rw [← hx, div_lt_iff hBq]
        calc (a : ℚ) < ((b * 2 ^ (findExpUp 1100 a b + 1) : ℕ) : ℚ) := by exact_mod_cast hexp2
          _ = (2 : ℚ) ^ 53 * ((b * 2 ^ (findExpUp 1100 a b - 52) : ℕ) : ℚ) := by
              rw [show b * 2 ^ (findExpUp 1100 a b + 1) =
                b * 2 ^ (findExpUp 1100 a b - 52) * 2 ^ 53 from by
                  rw [mul_assoc, ← pow_add,
                    show findExpUp 1100 a b - 52 + 53 = findExpUp 1100 a b + 1 from by omega]]
              push_cast
              ring
      obtain ⟨hm1, hm2⟩ := round_m_bounds hr1 hr2 hxlo hxhi
      refine ⟨?_, hm1, hm2, ⟨hr1, hr2⟩, hrt, hlo, hhi⟩
      · simp only [Frac.toRat]
        rw [show (((findExpUp 1100 a b : ℕ) : ℤ) - 52) =
          ((findExpUp 1100 a b - 52 : ℕ) : ℤ) from by omega, zpow_natCast]
        push_cast
        ring
  · rw [if_neg hba]
    push_neg at hba
    obtain ⟨hexp1, hexp2⟩ := findExpDown_spec 1100 a b ha hba hdown
    refine ⟨roundHalfEven (a * 2 ^ (52 + findExpDown 1100 a b)) b,
      -((findExpDown 1100 a b : ℕ) : ℤ), ?_⟩
    have hsz : ((52 : ℤ) - -((findExpDown 1100 a b : ℕ) : ℤ)) =
        ((52 + findExpDown 1100 a b : ℕ) : ℤ) := by omega
    have hx : ((a * 2 ^ (52 + findExpDown 1100 a b) : ℕ) : ℚ) / b =
        (a : ℚ) / b * (2 : ℚ) ^ ((52 : ℤ) - -((findExpDown 1100 a b : ℕ) : ℤ)) := by
      rw [hsz, zpow_natCast]
      push_cast
      ring
    obtain ⟨⟨hr1, hr2⟩, hrt⟩ :=
      roundHalfEven_spec (a * 2 ^ (52 + findExpDown 1100 a b)) b hb
    rw [hx] at hr1 hr2 hrt
    have hxlo : (2 : ℚ) ^ 52 ≤ (a : ℚ) / b * (2 : ℚ) ^ ((52 : ℤ) -
        -((findExpDown 1100 a b : ℕ) : ℤ)) := by
      rw [← hx, le_div_iff hbq]
      calc (2 : ℚ) ^ 52 * b = ((b * 2 ^ 52 : ℕ) : ℚ) := by push_cast; ring
        _ ≤ ((a * 2 ^ (52 + findExpDown 1100 a b) : ℕ) : ℚ) := by
          have : b * 2 ^ 52 ≤ a * 2 ^ (52 + findExpDown 1100 a b) := by
            calc b * 2 ^ 52 ≤ a * 2 ^ findExpDown 1100 a b * 2 ^ 52 :=
                  Nat.mul_le_mul_right _ hexp1
              _ = a * 2 ^ (52 + findExpDown 1100 a b) := by
                  rw [mul_assoc, ← pow_add,
                    show findExpDown 1100 a b + 52 = 52 + findExpDown 1100 a b from by omega]
          exact_mod_cast this
    have hxhi : (a : ℚ) / b * (2 : ℚ) ^ ((52 : ℤ) - -((findExpDown 1100 a b : ℕ) : ℤ)) <
        (2 : ℚ) ^ 53 := by
      rw [← hx, div_lt_iff hbq]
      calc ((a * 2 ^ (52 + findExpDown 1100 a b) : ℕ) : ℚ) < ((b * 2 ^ 53 : ℕ) : ℚ) := by
            have : a * 2 ^ (52 + findExpDown 1100 a b) < b * 2 ^ 53 := by
              calc a * 2 ^ (52 + findExpDown 1100 a b)
                  = a * 2 ^ findExpDown 1100 a b * 2 ^ 52 := by
                    rw [mul_assoc, ← pow_add,
                      show findExpDown 1100 a b + 52 = 52 + findExpDown 1100 a b from by omega]
                _ < b * 2 * 2 ^ 52 := (Nat.mul_lt_mul_right (by positivity)).mpr hexp2
                _ = b * 2 ^ 53 := by ring
            exact_mod_cast this
        _ = (2 : ℚ) ^ 53 * b := by push_cast; ring
    obtain ⟨hm1, hm2⟩ := round_m_bounds hr1 hr2 hxlo hxhi
    have hlo : (2 : ℚ) ^ (-((findExpDown 1100 a b : ℕ) : ℤ)) ≤ (a : ℚ) / b := by
      rw [zpow_neg, zpow_natCast, inv_eq_one_div, div_le_div_iff (by positivity) hbq]
      calc (1 : ℚ) * b = ((b : ℕ) : ℚ) := by ring
        _ ≤ ((a * 2 ^ findExpDown 1100 a b : ℕ) : ℚ) := by exact_mod_cast hexp1
        _ = (a : ℚ) * 2 ^ findExpDown 1100 a b := by push_cast; ring
    have hhi : (a : ℚ) / b < (2 : ℚ) ^ (-((findExpDown 1100 a b : ℕ) : ℤ) + 1) := by
      have h2z : (2 : ℚ) ^ (-((findExpDown 1100 a b : ℕ) : ℤ) + 1) =
          2 / (2 : ℚ) ^ findExpDown 1100 a b := by
        rw [zpow_add₀ (by norm_num : (2:ℚ) ≠ 0), zpow_neg, zpow_natCast, zpow_one]
        ring
      rw [h2z, div_lt_div_iff hbq (by positivity)]
      calc (a : ℚ) * 2 ^ findExpDown 1100 a b
          = ((a * 2 ^ findExpDown 1100 a b : ℕ) : ℚ) := by push_cast; ring
        _ < ((b * 2 : ℕ) : ℚ) := by exact_mod_cast hexp2
        _ = 2 * b := by push_cast; ring
    refine ⟨?_, hm1, hm2, ⟨hr1, hr2⟩, hrt, hlo, hhi⟩
    · show ((roundHalfEven (a * 2 ^ (52 + findExpDown 1100 a b)) b : ℤ) : ℚ) /
        (((2 ^ (52 + findExpDown 1100 a b) : ℕ) : ℤ) : ℚ) = _
      rw [show (-((findExpDown 1100 a b : ℕ) : ℤ) - 52) =
        -((52 + findExpDown 1100 a b : ℕ) : ℤ) from by omega, zpow_neg, zpow_natCast]
      push_cast
      rw [div_eq_mul_inv]

theorem flPos_den_pos (a b : ℕ) : 0 < (flPos a b).den := by
  unfold flPos
  split_ifs <;> dsimp only <;> positivity

theorem flPos_num_nonneg (a b : ℕ) : 0 ≤ (flPos a b).num := by
  unfold flPos
  split_ifs <;> dsimp only <;> positivity

theorem flPos_exact_dyadic {a b M k : ℕ} (ha : 0 < a) (hb : 0 < b)
    (hup : a < b * 2 ^ 1100) (hdown : b ≤ a * 2 ^ 1100)
    (hM : 0 < M) (hM53 : M < 2 ^ 53)
    (hval : (a : ℚ) / b = (M : ℚ) / 2 ^ k) :
    (flPos a b).toRat = (M : ℚ) / 2 ^ k := by
  obtain ⟨m, e, hv, hm1, hm2, ⟨hr1, hr2⟩, htie, hlo, hhi⟩ := flPos_spec ha hb hup hdown
  rw [hval] at hr1 hr2 hlo hhi
  have hMq : (0:ℚ) < (M : ℚ) := by exact_mod_cast hM
  have hek0 : 0 ≤ e + k := by
    by_contra hneg
    push_neg at hneg
    have h1 : (2:ℚ) ^ (e + 1) ≤ (2:ℚ) ^ (-(k:ℤ)) := zpow_le_zpow_right₀ (by norm_num) (by omega)
    have h3 : (M : ℚ) / 2 ^ k * (2:ℚ) ^ ((k:ℕ):ℤ) = (M : ℚ) := by
      rw [zpow_natCast]
      field_simp
    have h5 : (M : ℚ) < 1 := by
      calc (M : ℚ) = (M : ℚ) / 2 ^ k * (2:ℚ) ^ ((k:ℕ):ℤ) := h3.symm
        _ < (2:ℚ) ^ (e + 1) * (2:ℚ) ^ ((k:ℕ):ℤ) :=
            mul_lt_mul_of_pos_right hhi (zpow_pos (by norm_num) _)
        _ ≤ (2:ℚ) ^ (-(k:ℤ)) * (2:ℚ) ^ ((k:ℕ):ℤ) :=
            mul_le_mul_of_nonneg_right h1 (le_of_lt (zpow_pos (by norm_num) _))
        _ = 1 := by
            rw [← zpow_add₀ (by norm_num : (2:ℚ) ≠ 0)]
            norm_num
    have h6 : (1:ℚ) ≤ (M : ℚ) := by exact_mod_cast hM
    linarith
  have hek52 : e + k ≤ 52 := by
    by_contra hgt
    push_neg at hgt
    have h3 : (2:ℚ) ^ ((53:ℕ):ℤ) ≤ (2:ℚ) ^ (e + k) := zpow_le_zpow_right₀ (by norm_num) (by omega)
    have h4 : (2:ℚ) ^ (e + k) ≤ (M : ℚ) := by
      calc (2:ℚ) ^ (e + k) = (2:ℚ) ^ e * (2:ℚ) ^ ((k:ℕ):ℤ) := by
            rw [← zpow_add₀ (by norm_num : (2:ℚ) ≠ 0)]
        _ ≤ (M : ℚ) / 2 ^ k * (2:ℚ) ^ ((k:ℕ):ℤ) :=
            mul_le_mul_of_nonneg_right hlo (le_of_lt (zpow_pos (by norm_num) _))
        _ = (M : ℚ) := by
            rw [zpow_natCast]
            field_simp
    have h5 : (M : ℚ) < (2:ℚ) ^ ((53:ℕ):ℤ) := by
      rw [zpow_natCast]
      exact_mod_cast hM53
    linarith
  have hsz : ∃ s : ℕ, (s : ℤ) = 52 - e - k := ⟨(52 - e - k).toNat, by omega⟩
  obtain ⟨s, hs⟩ := hsz
  have hX : (M : ℚ) / 2 ^ k * (2:ℚ) ^ ((52:ℤ) - e) = ((M * 2 ^ s : ℕ) : ℚ) := by
    have hsplit : (2:ℚ) ^ ((52:ℤ) - e) = (2:ℚ) ^ (s:ℤ) * (2:ℚ) ^ ((k:ℕ):ℤ) := by
      rw [← zpow_add₀ (by norm_num : (2:ℚ) ≠ 0),
        show (s:ℤ) + ((k:ℕ):ℤ) = 52 - e from by omega]
    rw [hsplit, zpow_natCast, zpow_natCast]
    push_cast
    field_simp
    ring
  have hm : m = M * 2 ^ s := by
    have h1 : (m : ℚ) < ((M * 2 ^ s : ℕ) : ℚ) + 1 := by rw [← hX]; linarith
    have h2 : ((M * 2 ^ s : ℕ) : ℚ) < (m : ℚ) + 1 := by rw [← hX]; linarith
    have h1' : m < M * 2 ^ s + 1 := by exact_mod_cast h1
    have h2' : M * 2 ^ s < m + 1 := by exact_mod_cast h2
    omega
  rw [hv, hm]
  push_cast
  rw [show ((2:ℚ) ^ (s:ℕ)) = (2:ℚ) ^ ((s:ℤ)) from (zpow_natCast 2 s).symm,
    mul_assoc, ← zpow_add₀ (by norm_num : (2:ℚ) ≠ 0),
    show (s:ℤ) + (e - 52) = -((k:ℕ):ℤ) from by omega,
    zpow_neg, zpow_natCast]
  rw [div_eq_mul_inv]

theorem flPos_exact {n b : ℕ} (hb : 0 < b) (hn : 0 < n) (hlt : n < 2 ^ 53) :
    (flPos (n * b) b).toRat = (n : ℚ) := by
  have hbq : (0:ℚ) < (b : ℚ) := by exact_mod_cast hb
  have hup : n * b < b * 2 ^ 1100 := by
    have h1 : n < 2 ^ 1100 := lt_of_lt_of_le hlt (Nat.pow_le_pow_right (by norm_num) (by norm_num))
    calc n * b < 2 ^ 1100 * b := (Nat.mul_lt_mul_right hb).mpr h1
      _ = b * 2 ^ 1100 := Nat.mul_comm _ _
  have hdown : b ≤ n * b * 2 ^ 1100 := by
    have h1 : b ≤ n * b := Nat.le_mul_of_pos_left b hn
    have h2 : n * b ≤ n * b * 2 ^ 1100 :=
      Nat.le_mul_of_pos_right _ (Nat.pos_pow_of_pos _ (by norm_num))
    exact le_trans h1 h2
  have h := @flPos_exact_dyadic (n * b) b n 0
    (Nat.mul_pos hn hb) hb hup hdown hn hlt
    (by
      push_cast
      rw [pow_zero, div_one, mul_div_assoc, div_self hbq.ne', mul_one])
  rw [h, pow_zero, div_one]

theorem flPos_mono {a b c d : ℕ} (ha : 0 < a) (hb : 0 < b)
    (hup : a < b * 2 ^ 1100) (hdown : b ≤ a * 2 ^ 1100)
    (hc : 0 < c) (hd : 0 < d)
    (hup2 : c < d * 2 ^ 1100) (hdown2 : d ≤ c * 2 ^ 1100)
    (hle : (a : ℚ) / b ≤ (c : ℚ) / d) :
    (flPos a b).toRat ≤ (flPos c d).toRat := by
  obtain ⟨m, e, hv, hm1, hm2, ⟨hr1, hr2⟩, htie, hlo, hhi⟩ := flPos_spec ha hb hup hdown
  obtain ⟨n, f, hv2, hn1, hn2, ⟨hs1, hs2⟩, htie2, hlo2, hhi2⟩ := flPos_spec hc hd hup2 hdown2
  rw [hv, hv2]
  rcases lt_trichotomy e f with hef | hef | hef
  · have h1 : (m : ℚ) * (2:ℚ) ^ (e - 52) ≤ (2:ℚ) ^ 53 * (2:ℚ) ^ (e - 52) :=
      mul_le_mul_of_nonneg_right (by exact_mod_cast hm2) (le_of_lt (zpow_pos (by norm_num) _))
    have h2 : (2:ℚ) ^ 53 * (2:ℚ) ^ (e - 52) = (2:ℚ) ^ (e + 1) := by
      rw [show ((2:ℚ) ^ (53:ℕ)) = (2:ℚ) ^ ((53:ℤ)) from (zpow_natCast 2 53).symm,
        ← zpow_add₀ (by norm_num : (2:ℚ) ≠ 0),
        show (53:ℤ) + (e - 52) = e + 1 from by ring]
    have h3 : (2:ℚ) ^ (e + 1) ≤ (2:ℚ) ^ f := zpow_le_zpow_right₀ (by norm_num) (by omega)
    have h4 : (2:ℚ) ^ f = (2:ℚ) ^ 52 * (2:ℚ) ^ (f - 52) := by
      rw [show ((2:ℚ) ^ (52:ℕ)) = (2:ℚ) ^ ((52:ℤ)) from (zpow_natCast 2 52).symm,
        ← zpow_add₀ (by norm_num : (2:ℚ) ≠ 0),
        show (52:ℤ) + (f - 52) = f from by ring]
    have h5 : (2:ℚ) ^ 52 * (2:ℚ) ^ (f - 52) ≤ (n : ℚ) * (2:ℚ) ^ (f - 52) :=
      mul_le_mul_of_nonneg_right (by exact_mod_cast hn1) (le_of_lt (zpow_pos (by norm_num) _))
    linarith
  · subst hef
    have hzpos : (0:ℚ) < (2:ℚ) ^ ((52:ℤ) - e) := zpow_pos (by norm_num) _
    have hXX : (a : ℚ) / b * (2:ℚ) ^ ((52:ℤ) - e) ≤ (c : ℚ) / d * (2:ℚ) ^ ((52:ℤ) - e) :=
      mul_le_mul_of_nonneg_right hle (le_of_lt hzpos)
    have hmm : m ≤ n + 1 := by
      have h : (m : ℚ) ≤ (n : ℚ) + 1 := by linarith
      exact_mod_cast h
    rcases Nat.lt_or_ge n m with hgt | hge
    · have hmeq : m = n + 1 := by omega
      have hmq : (m : ℚ) = (n : ℚ) + 1 := by rw [hmeq]; push_cast; ring
      have ht1 : (n : ℚ) = (c : ℚ) / d * (2:ℚ) ^ ((52:ℤ) - e) - 1 / 2 := by
        have hle1 : (n : ℚ) ≤ (c : ℚ) / d * (2:ℚ) ^ ((52:ℤ) - e) - 1 / 2 := by linarith
        linarith
      have ht2 : (m : ℚ) = (a : ℚ) / b * (2:ℚ) ^ ((52:ℤ) - e) + 1 / 2 := by linarith
      have hp1 : m % 2 = 0 := htie (Or.inl ht2)
      have hp2 : n % 2 = 0 := htie2 (Or.inr ht1)
      omega
    · exact mul_le_mul_of_nonneg_right (by exact_mod_cast hge)
        (le_of_lt (zpow_pos (by norm_num) _))
  · exfalso
    have h1 : (2:ℚ) ^ (f + 1) ≤ (2:ℚ) ^ e := zpow_le_zpow_right₀ (by norm_num) (by omega)
    linarith

theorem flPos_bounds {a b : ℕ} (ha : 0 < a) (hb : 0 < b)
    (hup : a < b * 2 ^ 1100) (hdown : b ≤ a * 2 ^ 1100) :
    (a : ℚ) / b / 2 ≤ (flPos a b).toRat ∧ (flPos a b).toRat ≤ 2 * ((a : ℚ) / b) := by
  obtain ⟨m, e, hv, hm1, hm2, ⟨hr1, hr2⟩, htie, hlo, hhi⟩ := flPos_spec ha hb hup hdown
  rw [hv]
  have hzpos : (0:ℚ) < (2:ℚ) ^ (e - 52) := zpow_pos (by norm_num) _
  have h2 : (2:ℚ) ^ 52 * (2:ℚ) ^ (e - 52) = (2:ℚ) ^ e := by
    rw [show ((2:ℚ) ^ (52:ℕ)) = (2:ℚ) ^ ((52:ℤ)) from (zpow_natCast 2 52).symm,
      ← zpow_add₀ (by norm_num : (2:ℚ) ≠ 0), show (52:ℤ) + (e - 52) = e from by ring]
  have h3 : (2:ℚ) ^ 53 * (2:ℚ) ^ (e - 52) = (2:ℚ) ^ (e + 1) := by
    rw [show ((2:ℚ) ^ (53:ℕ)) = (2:ℚ) ^ ((53:ℤ)) from (zpow_natCast 2 53).symm,
      ← zpow_add₀ (by norm_num : (2:ℚ) ≠ 0), show (53:ℤ) + (e - 52) = e + 1 from by ring]
  have h4 : (2:ℚ) ^ (e + 1) = 2 * (2:ℚ) ^ e := by
    rw [zpow_add₀ (by norm_num : (2:ℚ) ≠ 0), zpow_one]
    ring
  constructor
  · have h := mul_le_mul_of_nonneg_right
      (show ((2:ℚ) ^ 52) ≤ (m : ℚ) from by exact_mod_cast hm1) (le_of_lt hzpos)
    rw [h2] at h
    linarith
  · have h := mul_le_mul_of_nonneg_right
      (show (m : ℚ) ≤ ((2:ℚ) ^ 53) from by exact_mod_cast hm2) (le_of_lt hzpos)
    rw [h3, h4] at h
    linarith

theorem flD_zero {x : Frac} (h : x.num = 0) : flD x = Frac.zero := by
  unfold flD
  rw [if_pos h]

theorem flD_eq_flPos {x : Frac} (hd : 0 < x.den) (hpos : 0 < x.num) :
    flD x = flPos x.num.natAbs x.den.natAbs := by
  unfold flD
  rw [if_neg (by omega : ¬ x.num = 0), if_pos (mul_pos hpos hd)]

theorem flD_den_pos (x : Frac) : 0 < (flD x).den := by
  unfold flD
  split_ifs
  · norm_num [Frac.zero]
  · exact flPos_den_pos _ _
  · exact flPos_den_pos _ _

theorem flD_num_nonneg {x : Frac} (hn : 0 ≤ x.num) (hd : 0 < x.den) : 0 ≤ (flD x).num := by
  unfold flD
  split_ifs with h1 h2
  · norm_num [Frac.zero]
  · exact flPos_num_nonneg _ _
  · exact absurd (mul_pos (lt_of_le_of_ne hn (Ne.symm h1)) hd) h2

theorem flD_toRat_nonneg {x : Frac} (hn : 0 ≤ x.num) (hd : 0 < x.den) :
    0 ≤ (flD x).toRat :=
  toRat_nonneg (flD_num_nonneg hn hd) (flD_den_pos x)

theorem toRat_natAbs {x : Frac} (hn : 0 ≤ x.num) (hd : 0 < x.den) :
    ((x.num.natAbs : ℕ) : ℚ) / ((x.den.natAbs : ℕ) : ℚ) = x.toRat := by
  unfold Frac.toRat
  have h1 : ((x.num.natAbs : ℕ) : ℚ) = ((x.num : ℤ) : ℚ) := by
    rw [Int.cast_natAbs, abs_of_nonneg hn]
  have h2 : ((x.den.natAbs : ℕ) : ℚ) = ((x.den : ℤ) : ℚ) := by
    rw [Int.cast_natAbs, abs_of_nonneg hd.le]
  rw [h1, h2]

theorem flPos_range {x : Frac} (hd : 0 < x.den) (hpos : 0 < x.num)
    (hu : x.toRat < 2 ^ 1100) (hl : (1:ℚ) ≤ x.toRat * 2 ^ 1100) :
    0 < x.num.natAbs ∧ 0 < x.den.natAbs ∧
      x.num.natAbs < x.den.natAbs * 2 ^ 1100 ∧ x.den.natAbs ≤ x.num.natAbs * 2 ^ 1100 := by
  have hdq : (0:ℚ) < ((x.den.natAbs : ℕ) : ℚ) := by
    have h : 0 < x.den.natAbs := by omega
    exact_mod_cast h
  have hx : ((x.num.natAbs : ℕ) : ℚ) / ((x.den.natAbs : ℕ) : ℚ) = x.toRat :=
    toRat_natAbs hpos.le hd
  refine ⟨by omega, by omega, ?_, ?_⟩
  · have h : ((x.num.natAbs : ℕ) : ℚ) / ((x.den.natAbs : ℕ) : ℚ) < 2 ^ 1100 := by
      rw [hx]
      exact hu
    rw [div_lt_iff hdq] at h
    have h2 : ((x.num.natAbs : ℕ) : ℚ) < ((x.den.natAbs * 2 ^ 1100 : ℕ) : ℚ) := by
      push_cast
      linarith
    exact_mod_cast h2
  · have h : (1:ℚ) ≤ ((x.num.natAbs : ℕ) : ℚ) / ((x.den.natAbs : ℕ) : ℚ) * 2 ^ 1100 := by
      rw [hx]
      exact hl
    rw [div_mul_eq_mul_div, le_div_iff hdq] at h
    have h2 : ((x.den.natAbs : ℕ) : ℚ) ≤ ((x.num.natAbs * 2 ^ 1100 : ℕ) : ℚ) := by
      push_cast
      linarith
    exact_mod_cast h2

theorem flD_exact_dyadic {x : Frac} {M k : ℕ} (hd : 0 < x.den) (hn : 0 ≤ x.num)
    (hval : x.toRat = (M : ℚ) / 2 ^ k) (hM53 : M < 2 ^ 53) (hk : k ≤ 1000) :
    (flD x).toRat = (M : ℚ) / 2 ^ k := by
  rcases Nat.eq_zero_or_pos M with hM0 | hMpos
  · subst hM0
    have h0 : x.toRat = 0 := by
      rw [hval]
      norm_num
    rw [flD_zero ((toRat_eq_zero_iff hd).mp h0), Frac.toRat_zero]
    norm_num
  · have hMq : (0:ℚ) < (M : ℚ) := by exact_mod_cast hMpos
    have hpos : 0 < x.num := by
      rw [← toRat_pos_iff hd, hval]
      positivity
    have hu : x.toRat < 2 ^ 1100 := by
      rw [hval]
      have h1 : (M : ℚ) / 2 ^ k ≤ (M : ℚ) := div_le_self hMq.le (one_le_pow₀ (by norm_num))
      have h2 : (M : ℚ) < 2 ^ 53 := by exact_mod_cast hM53
      have h3 : (2:ℚ) ^ 53 ≤ 2 ^ 1100 := pow_le_pow_right₀ (by norm_num) (by norm_num)
      linarith
    have hl : (1:ℚ) ≤ x.toRat * 2 ^ 1100 := by
      rw [hval, div_mul_eq_mul_div, le_div_iff (by positivity)]
      have h1 : (2:ℚ) ^ k ≤ 2 ^ 1000 := pow_le_pow_right₀ (by norm_num) hk
      have h2 : (1:ℚ) ≤ (M : ℚ) := by exact_mod_cast hMpos
      have h3 : (1:ℚ) * 2 ^ 1100 ≤ (M : ℚ) * 2 ^ 1100 :=
        mul_le_mul_of_nonneg_right h2 (by positivity)
      have h4 : (2:ℚ) ^ 1000 ≤ 2 ^ 1100 := pow_le_pow_right₀ (by norm_num) (by norm_num)
      linarith
    obtain ⟨ha1, hb1, ha2, hb2⟩ := flPos_range hd hpos hu hl
    rw [flD_eq_flPos hd hpos]
    apply flPos_exact_dyadic ha1 hb1 ha2 hb2 hMpos hM53
    rw [toRat_natAbs hn hd]
    exact hval

theorem flD_exact_nat {x : Frac} {n : ℕ} (hd : 0 < x.den) (hn : 0 ≤ x.num)
    (hval : x.toRat = (n : ℚ)) (hlt : n < 2 ^ 53) : (flD x).toRat = (n : ℚ) := by
  have h := @flD_exact_dyadic x n 0 hd hn
    (by rw [hval, pow_zero, div_one]) hlt (by norm_num)
  rw [h, pow_zero, div_one]

theorem flD_mono {x y : Frac} (hdx : 0 < x.den) (hdy : 0 < y.den)
    (hnx : 0 ≤ x.num) (hny : 0 ≤ y.num)
    (hux : x.toRat < 2 ^ 1100) (huy : y.toRat < 2 ^ 1100)
    (hlx : x.num ≠ 0 → (1:ℚ) ≤ x.toRat * 2 ^ 1100)
    (hly : y.num ≠ 0 → (1:ℚ) ≤ y.toRat * 2 ^ 1100)
    (hxy : x.toRat ≤ y.toRat) : (flD x).toRat ≤ (flD y).toRat := by
  by_cases hx0 : x.num = 0
  · rw [flD_zero hx0, Frac.toRat_zero]
    exact flD_toRat_nonneg hny hdy
  · have hxpos : 0 < x.num := lt_of_le_of_ne hnx (Ne.symm hx0)
    have hxrat : 0 < x.toRat := (toRat_pos_iff hdx).mpr hxpos
    have hyrat : 0 < y.toRat := lt_of_lt_of_le hxrat hxy
    have hypos : 0 < y.num := (toRat_pos_iff hdy).mp hyrat
    obtain ⟨ha1, hb1, ha2, hb2⟩ := flPos_range hdx hxpos hux (hlx hx0)
    obtain ⟨hc1, hd1, hc2, hd2⟩ := flPos_range hdy hypos huy (hly (by omega))
    rw [flD_eq_flPos hdx hxpos, flD_eq_flPos hdy hypos]
    apply flPos_mono ha1 hb1 ha2 hb2 hc1 hd1 hc2 hd2
    rw [toRat_natAbs hnx hdx, toRat_natAbs hny hdy]
    exact hxy

theorem flD_bounds {x : Frac} (hd : 0 < x.den) (hpos : 0 < x.num)
    (hu : x.toRat < 2 ^ 1100) (hl : (1:ℚ) ≤ x.toRat * 2 ^ 1100) :
    x.toRat / 2 ≤ (flD x).toRat ∧ (flD x).toRat ≤ 2 * x.toRat := by
  obtain ⟨ha1, hb1, ha2, hb2⟩ := flPos_range hd hpos hu hl
  rw [flD_eq_flPos hd hpos]
  have h := flPos_bounds ha1 hb1 ha2 hb2
  rw [toRat_natAbs hpos.le hd] at h
  exact h

theorem floorNat_eq {x : Frac} (hn : 0 ≤ x.num) (hd : 0 < x.den) :
    Frac.floorNat x = ⌊x.toRat⌋₊ := by
  obtain ⟨a, ha⟩ := Int.eq_ofNat_of_zero_le hn
  obtain ⟨b, hb⟩ := Int.eq_ofNat_of_zero_le hd.le
  unfold Frac.floorNat Frac.toRat
  rw [ha, hb]
  rw [Int.fdiv_eq_tdiv (by positivity) (by positivity), ← Int.ofNat_tdiv, Int.toNat_ofNat]
  rw [show (((a : ℤ)) : ℚ) = (a : ℚ) from by push_cast; ring,
    show (((b : ℤ)) : ℚ) = (b : ℚ) from by push_cast; ring]
  rw [Nat.floor_div_nat, Nat.floor_natCast]

theorem ofNat_den_pos (n : ℕ) : 0 < (Frac.ofNat n).den := by
  unfold Frac.ofNat
  norm_num

theorem ofNat_num_nonneg (n : ℕ) : 0 ≤ (Frac.ofNat n).num := by
  unfold Frac.ofNat
  positivity

theorem flD_ofNat_toRat {n : ℕ} (h : n < 2 ^ 53) : (flD (Frac.ofNat n)).toRat = (n : ℚ) :=
  flD_exact_nat (ofNat_den_pos n) (ofNat_num_nonneg n) (Frac.toRat_ofNat n) h

theorem sectorWidthFP_eq_flD (l r N : ℕ) : sectorWidthFP l r N = flD (wFrac l r N) := rfl

theorem sectorBoundaryFP_eq_floor (l r N i : ℕ) :
    sectorBoundaryFP l r N i = Frac.floorNat (flD (lPlusITimesW l r N i)) := rfl

theorem boundary_fp_aux {l r N i : ℕ} (hl53 : l < 2 ^ 53)
    (h : (iTimesW l r N i).num = 0) : sectorBoundaryFP l r N i = l := by
  rw [sectorBoundaryFP_eq_floor]
  unfold lPlusITimesW
  rw [flD_zero h]
  have hadd : Frac.add (flD (Frac.ofNat l)) Frac.zero = flD (Frac.ofNat l) := by
    unfold Frac.add Frac.zero
    simp
  rw [hadd]
  have hnn : 0 ≤ (flD (Frac.ofNat l)).num :=
    flD_num_nonneg (ofNat_num_nonneg l) (ofNat_den_pos l)
  have hval : (flD (flD (Frac.ofNat l))).toRat = (l : ℚ) :=
    flD_exact_nat (flD_den_pos _) hnn (flD_ofNat_toRat hl53) hl53
  rw [floorNat_eq (flD_num_nonneg hnn (flD_den_pos _)) (flD_den_pos _), hval, Nat.floor_natCast]

theorem sectorWidthFP_deg (l N : ℕ) : sectorWidthFP l l N = Frac.zero := by
  rw [sectorWidthFP_eq_flD]
  apply flD_zero
  unfold wFrac
  have hsub : (Frac.sub (Frac.ofNat l) (Frac.ofNat l)).num = 0 := by
    unfold Frac.sub Frac.ofNat
    simp
  rw [flD_zero hsub]
  unfold Frac.div Frac.zero
  simp

theorem boundary_fp_deg {l N : ℕ} (hl53 : l < 2 ^ 53) (i : ℕ) :
    sectorBoundaryFP l l N i = l := by
  apply boundary_fp_aux hl53
  unfold iTimesW
  rw [sectorWidthFP_deg]
  unfold Frac.mul Frac.zero
  simp

theorem boundary_fp_zero {l r N : ℕ} (hl53 : l < 2 ^ 53) :
    sectorBoundaryFP l r N 0 = l := by
  apply boundary_fp_aux hl53
  unfold iTimesW
  rw [flD_zero (by unfold Frac.ofNat; simp : (Frac.ofNat 0).num = 0)]
  unfold Frac.mul Frac.zero
  simp

theorem subFrac_facts {l r : ℕ} (hlr : l ≤ r) :
    (Frac.sub (Frac.ofNat r) (Frac.ofNat l)).num = ((r - l : ℕ) : ℤ) ∧
    (Frac.sub (Frac.ofNat r) (Frac.ofNat l)).den = 1 ∧
    (Frac.sub (Frac.ofNat r) (Frac.ofNat l)).toRat = ((r - l : ℕ) : ℚ) := by
  have h1 : (Frac.sub (Frac.ofNat r) (Frac.ofNat l)).num = ((r - l : ℕ) : ℤ) := by
    show (r : ℤ) * 1 - (l : ℤ) * 1 = ((r - l : ℕ) : ℤ)
    omega
  have h2 : (Frac.sub (Frac.ofNat r) (Frac.ofNat l)).den = 1 := by
    show (1 : ℤ) * 1 = 1
    norm_num
  refine ⟨h1, h2, ?_⟩
  unfold Frac.toRat
  rw [h1, h2]
  push_cast
  norm_num

theorem wFrac_facts {l r N : ℕ} (hlr : l ≤ r) (hN : 1 ≤ N) (hr40 : r ≤ 2 ^ 40)
    (hN40 : N ≤ 2 ^ 40) :
    0 < (wFrac l r N).den ∧ 0 ≤ (wFrac l r N).num ∧
      (wFrac l r N).toRat = ((r - l : ℕ) : ℚ) / (N : ℚ) := by
  obtain ⟨hsn, hsd, hsv⟩ := subFrac_facts hlr
  have hAval : (flD (Frac.sub (Frac.ofNat r) (Frac.ofNat l))).toRat = ((r - l : ℕ) : ℚ) :=
    flD_exact_nat (by rw [hsd]; norm_num) (by rw [hsn]; positivity) hsv (by omega)
  have hAnum : 0 ≤ (flD (Frac.sub (Frac.ofNat r) (Frac.ofNat l))).num :=
    flD_num_nonneg (by rw [hsn]; positivity) (by rw [hsd]; norm_num)
  have hBval : (flD (Frac.ofNat N)).toRat = (N : ℚ) := flD_ofNat_toRat (by omega)
  have hBden : 0 < (flD (Frac.ofNat N)).den := flD_den_pos _
  have hBnum : 0 < (flD (Frac.ofNat N)).num := by
    rw [← toRat_pos_iff hBden, hBval]
    exact_mod_cast hN
  refine ⟨?_, ?_, ?_⟩
  · show 0 < (flD (Frac.sub (Frac.ofNat r) (Frac.ofNat l))).den * (flD (Frac.ofNat N)).num
    exact mul_pos (flD_den_pos _) hBnum
  · show 0 ≤ (flD (Frac.sub (Frac.ofNat r) (Frac.ofNat l))).num * (flD (Frac.ofNat N)).den
    exact mul_nonneg hAnum hBden.le
  · show (Frac.div _ _).toRat = _
    rw [toRat_div, hAval, hBval]

theorem widthFP_facts {l r N : ℕ} (hlr : l ≤ r) (hN : 1 ≤ N) (hr40 : r ≤ 2 ^ 40)
    (hN40 : N ≤ 2 ^ 40) (hd1 : 1 ≤ r - l) :
    0 < (sectorWidthFP l r N).den ∧ 0 ≤ (sectorWidthFP l r N).num ∧
      (1:ℚ) / 2 ^ 41 ≤ (sectorWidthFP l r N).toRat ∧
      (sectorWidthFP l r N).toRat ≤ 2 ^ 41 := by
  obtain ⟨hDden, hDnum, hDval⟩ := wFrac_facts hlr hN hr40 hN40
  have hNq : (0:ℚ) < (N : ℚ) := by exact_mod_cast hN
  have hNq1 : (1:ℚ) ≤ (N : ℚ) := by exact_mod_cast hN
  have hN40q : (N : ℚ) ≤ 2 ^ 40 := by exact_mod_cast hN40
  have hdq : (1:ℚ) ≤ ((r - l : ℕ) : ℚ) := by exact_mod_cast hd1
  have hd40 : ((r - l : ℕ) : ℚ) ≤ 2 ^ 40 := by
    have h : r - l ≤ 2 ^ 40 := by omega
    exact_mod_cast h
  have hDpos : 0 < (wFrac l r N).toRat := by
    rw [hDval]
    exact div_pos (by linarith) hNq
  have hDlow : (1:ℚ) / 2 ^ 40 ≤ (wFrac l r N).toRat := by
    rw [hDval, div_le_div_iff (by norm_num) hNq]
    have h1 : (1:ℚ) * 2 ^ 40 ≤ ((r - l : ℕ) : ℚ) * 2 ^ 40 :=
      mul_le_mul_of_nonneg_right hdq (by positivity)
    linarith
  have hDhigh : (wFrac l r N).toRat ≤ 2 ^ 40 := by
    rw [hDval]
    have h1 : ((r - l : ℕ) : ℚ) / N ≤ ((r - l : ℕ) : ℚ) := div_le_self (by linarith) hNq1
    linarith
  have hDlt : (wFrac l r N).toRat < 2 ^ 1100 := by
    have h : (2:ℚ) ^ 40 < 2 ^ 1100 := by norm_num
    linarith
  have hDge : (1:ℚ) ≤ (wFrac l r N).toRat * 2 ^ 1100 := by
    have h1 : (1:ℚ) / 2 ^ 40 * 2 ^ 1100 ≤ (wFrac l r N).toRat * 2 ^ 1100 :=
      mul_le_mul_of_nonneg_right hDlow (by positivity)
    have h2 : (1:ℚ) ≤ (1:ℚ) / 2 ^ 40 * 2 ^ 1100 := by norm_num
    linarith
  obtain ⟨hb1, hb2⟩ := flD_bounds hDden ((toRat_pos_iff hDden).mp hDpos) hDlt hDge
  rw [sectorWidthFP_eq_flD]
  refine ⟨flD_den_pos _, flD_num_nonneg hDnum hDden, ?_, ?_⟩
  · linarith
  · linarith

theorem mulFP_facts {l r N : ℕ} (hlr : l ≤ r) (hN : 1 ≤ N) (hr40 : r ≤ 2 ^ 40)
    (hN40 : N ≤ 2 ^ 40) (hd1 : 1 ≤ r - l) {i : ℕ} (hi : i ≤ N) :
    0 < (iTimesW l r N i).den ∧ 0 ≤ (iTimesW l r N i).num ∧
      (iTimesW l r N i).toRat = (i : ℚ) * (sectorWidthFP l r N).toRat ∧
      (iTimesW l r N i).toRat ≤ 2 ^ 81 ∧
      ((iTimesW l r N i).num ≠ 0 → (1:ℚ) / 2 ^ 41 ≤ (iTimesW l r N i).toRat) := by
  obtain ⟨hWden, hWnum, hWlow, hWhigh⟩ := widthFP_facts hlr hN hr40 hN40 hd1
  have hWpos : 0 < (sectorWidthFP l r N).toRat := by
    have h : (0:ℚ) < 1 / 2 ^ 41 := by norm_num
    linarith
  have hIval : (flD (Frac.ofNat i)).toRat = (i : ℚ) := flD_ofNat_toRat (by omega)
  have hIden : 0 < (flD (Frac.ofNat i)).den := flD_den_pos _
  have hInum : 0 ≤ (flD (Frac.ofNat i)).num :=
    flD_num_nonneg (ofNat_num_nonneg i) (ofNat_den_pos i)
  have hden : 0 < (iTimesW l r N i).den := by
    show 0 < (flD (Frac.ofNat i)).den * (sectorWidthFP l r N).den
    exact mul_pos hIden hWden
  have hnum : 0 ≤ (iTimesW l r N i).num := by
    show 0 ≤ (flD (Frac.ofNat i)).num * (sectorWidthFP l r N).num
    exact mul_nonneg hInum hWnum
  have hval : (iTimesW l r N i).toRat = (i : ℚ) * (sectorWidthFP l r N).toRat := by
    show (Frac.mul _ _).toRat = _
    rw [toRat_mul, hIval]
  have hiq : (i : ℚ) ≤ 2 ^ 40 := by
    have h : i ≤ 2 ^ 40 := by omega
    exact_mod_cast h
  have hhigh : (iTimesW l r N i).toRat ≤ 2 ^ 81 := by
    rw [hval]
    have h1 : (i : ℚ) * (sectorWidthFP l r N).toRat ≤ 2 ^ 40 * 2 ^ 41 :=
      mul_le_mul hiq hWhigh hWpos.le (by positivity)
    have h2 : (2:ℚ) ^ 40 * 2 ^ 41 = 2 ^ 81 := by norm_num
    linarith
  refine ⟨hden, hnum, hval, hhigh, ?_⟩
  intro hne
  have hpos : 0 < (iTimesW l r N i).toRat :=
    (toRat_pos_iff hden).mpr (lt_of_le_of_ne hnum (Ne.symm hne))
  have hi1 : 1 ≤ i := by
    by_contra h0
    push_neg at h0
    have h00 : i = 0 := by omega
    rw [hval, h00] at hpos
    norm_num at hpos
  have hiq1 : (1 : ℚ) ≤ (i : ℚ) := by exact_mod_cast hi1
  rw [hval]
  have h1 : 1 * (sectorWidthFP l r N).toRat ≤ (i : ℚ) * (sectorWidthFP l r N).toRat :=
    mul_le_mul_of_nonneg_right hiq1 hWpos.le
  linarith

theorem tFP_facts {l r N : ℕ} (hlr : l ≤ r) (hN : 1 ≤ N) (hr40 : r ≤ 2 ^ 40)
    (hN40 : N ≤ 2 ^ 40) (hd1 : 1 ≤ r - l) {i : ℕ} (hi : i ≤ N) :
    0 ≤ (flD (iTimesW l r N i)).num ∧ 0 < (flD (iTimesW l r N i)).den ∧
      0 ≤ (flD (iTimesW l r N i)).toRat ∧ (flD (iTimesW l r N i)).toRat ≤ 2 ^ 82 ∧
      ((flD (iTimesW l r N i)).num ≠ 0 →
        (1:ℚ) / 2 ^ 42 ≤ (flD (iTimesW l r N i)).toRat) := by
  obtain ⟨hden, hnum, hval, hhigh, hlow⟩ := mulFP_facts hlr hN hr40 hN40 hd1 hi
  refine ⟨flD_num_nonneg hnum hden, flD_den_pos _, flD_toRat_nonneg hnum hden, ?_, ?_⟩
  · by_cases h0 : (iTimesW l r N i).num = 0
    · rw [flD_zero h0, Frac.toRat_zero]
      positivity
    · have hpos : 0 < (iTimesW l r N i).num := lt_of_le_of_ne hnum (Ne.symm h0)
      have hlt : (iTimesW l r N i).toRat < 2 ^ 1100 := by
        have h : (2:ℚ) ^ 81 < 2 ^ 1100 := by norm_num
        linarith
      have hge : (1:ℚ) ≤ (iTimesW l r N i).toRat * 2 ^ 1100 := by
        have h1 := hlow h0
        have h2 : (1:ℚ) / 2 ^ 41 * 2 ^ 1100 ≤ (iTimesW l r N i).toRat * 2 ^ 1100 :=
          mul_le_mul_of_nonneg_right h1 (by positivity)
        have h3 : (1:ℚ) ≤ 1 / 2 ^ 41 * 2 ^ 1100 := by norm_num
        linarith
      obtain ⟨hb1, hb2⟩ := flD_bounds hden hpos hlt hge
      have h4 : (2:ℚ) * 2 ^ 81 = 2 ^ 82 := by norm_num
      linarith
  · intro hne
    have h0 : (iTimesW l r N i).num ≠ 0 := by
      intro hc
      rw [flD_zero hc] at hne
      exact hne rfl
    have hpos : 0 < (iTimesW l r N i).num := lt_of_le_of_ne hnum (Ne.symm h0)
    have hlt : (iTimesW l r N i).toRat < 2 ^ 1100 := by
      have h : (2:ℚ) ^ 81 < 2 ^ 1100 := by norm_num
      linarith
    have hge : (1:ℚ) ≤ (iTimesW l r N i).toRat * 2 ^ 1100 := by
      have h1 := hlow h0
      have h2 : (1:ℚ) / 2 ^ 41 * 2 ^ 1100 ≤ (iTimesW l r N i).toRat * 2 ^ 1100 :=
        mul_le_mul_of_nonneg_right h1 (by positivity)
      have h3 : (1:ℚ) ≤ 1 / 2 ^ 41 * 2 ^ 1100 := by norm_num
      linarith
    obtain ⟨hb1, hb2⟩ := flD_bounds hden hpos hlt hge
    have h1 := hlow h0
    linarith

theorem addFP_facts {l r N : ℕ} (hlr : l ≤ r) (hN : 1 ≤ N) (hr40 : r ≤ 2 ^ 40)
    (hN40 : N ≤ 2 ^ 40) (hd1 : 1 ≤ r - l) {i : ℕ} (hi : i ≤ N) :
    0 < (lPlusITimesW l r N i).den ∧ 0 ≤ (lPlusITimesW l r N i).num ∧
      (lPlusITimesW l r N i).toRat = (l : ℚ) + (flD (iTimesW l r N i)).toRat ∧
      (lPlusITimesW l r N i).toRat < 2 ^ 1100 ∧
      ((lPlusITimesW l r N i).num ≠ 0 →
        (1:ℚ) ≤ (lPlusITimesW l r N i).toRat * 2 ^ 1100) := by
  obtain ⟨hTnum, hTden, hTnn, hThigh, hTlow⟩ := tFP_facts hlr hN hr40 hN40 hd1 hi
  have hLden : 0 < (flD (Frac.ofNat l)).den := flD_den_pos _
  have hLnum : 0 ≤ (flD (Frac.ofNat l)).num :=
    flD_num_nonneg (ofNat_num_nonneg l) (ofNat_den_pos l)
  have hLval : (flD (Frac.ofNat l)).toRat = (l : ℚ) := flD_ofNat_toRat (by omega)
  have hden : 0 < (lPlusITimesW l r N i).den := by
    show 0 < (flD (Frac.ofNat l)).den * (flD (iTimesW l r N i)).den
    exact mul_pos hLden hTden
  have hnum : 0 ≤ (lPlusITimesW l r N i).num := by
    show 0 ≤ (flD (Frac.ofNat l)).num * (flD (iTimesW l r N i)).den +
      (flD (iTimesW l r N i)).num * (flD (Frac.ofNat l)).den
    exact add_nonneg (mul_nonneg hLnum hTden.le) (mul_nonneg hTnum hLden.le)
  have hval : (lPlusITimesW l r N i).toRat = (l : ℚ) + (flD (iTimesW l r N i)).toRat := by
    show (Frac.add _ _).toRat = _
    rw [toRat_add hLden.ne' hTden.ne', hLval]
  have hlq : (l : ℚ) ≤ 2 ^ 40 := by
    have h : l ≤ 2 ^ 40 := by omega
    exact_mod_cast h
  refine ⟨hden, hnum, hval, ?_, ?_⟩
  · rw [hval]
    have h1 : (2:ℚ) ^ 40 + 2 ^ 82 < 2 ^ 1100 := by norm_num
    linarith
  · intro hne
    have hpos : 0 < (lPlusITimesW l r N i).toRat :=
      (toRat_pos_iff hden).mpr (lt_of_le_of_ne hnum (Ne.symm hne))
    rcases Nat.eq_zero_or_pos l with hl0 | hl1
    · subst hl0
      rw [hval] at hpos
      simp only [Nat.cast_zero, zero_add] at hpos
      rw [hval]
      simp only [Nat.cast_zero, zero_add]
      have hTne : (flD (iTimesW 0 r N i)).num ≠ 0 := by
        intro hc
        rw [(toRat_eq_zero_iff hTden).mpr hc] at hpos
        norm_num at hpos
      have h1 := hTlow hTne
      have h2 : (1:ℚ) / 2 ^ 42 * 2 ^ 1100 ≤ (flD (iTimesW 0 r N i)).toRat * 2 ^ 1100 :=
        mul_le_mul_of_nonneg_right h1 (by positivity)
      have h3 : (1:ℚ) ≤ 1 / 2 ^ 42 * 2 ^ 1100 := by norm_num
      linarith
    · have hl1q : (1:ℚ) ≤ (l : ℚ) := by exact_mod_cast hl1
      rw [hval]
      have h1 : (1:ℚ) * 2 ^ 1100 ≤ ((l : ℚ) + (flD (iTimesW l r N i)).toRat) * 2 ^ 1100 :=
        mul_le_mul_of_nonneg_right (by linarith) (by positivity)
      have h3 : (1:ℚ) ≤ 1 * 2 ^ 1100 := by norm_num
      linarith

theorem boundary_fp_mono {l r N : ℕ} (hlr : l ≤ r) (hN : 1 ≤ N) (hr40 : r ≤ 2 ^ 40)
    (hN40 : N ≤ 2 ^ 40) :
    ∀ i j, i ≤ j → j ≤ N → sectorBoundaryFP l r N i ≤ sectorBoundaryFP l r N j := by
  intro i j hij hj
  by_cases hrl : r - l = 0
  · have hrleq : r = l := by omega
    subst hrleq
    rw [boundary_fp_deg (by omega) i, boundary_fp_deg (by omega) j]
  · have hd1 : 1 ≤ r - l := by omega
    have hi : i ≤ N := le_trans hij hj
    obtain ⟨hSden1, hSnum1, hSval1, hSlt1, hSge1⟩ := addFP_facts hlr hN hr40 hN40 hd1 hi
    obtain ⟨hSden2, hSnum2, hSval2, hSlt2, hSge2⟩ := addFP_facts hlr hN hr40 hN40 hd1 hj
    obtain ⟨hMden1, hMnum1, hMval1, hMhigh1, hMlow1⟩ := mulFP_facts hlr hN hr40 hN40 hd1 hi
    obtain ⟨hMden2, hMnum2, hMval2, hMhigh2, hMlow2⟩ := mulFP_facts hlr hN hr40 hN40 hd1 hj
    have conv : ∀ k : ℕ, ((iTimesW l r N k).num ≠ 0 →
        (1:ℚ) / 2 ^ 41 ≤ (iTimesW l r N k).toRat) →
        ((iTimesW l r N k).num ≠ 0 → (1:ℚ) ≤ (iTimesW l r N k).toRat * 2 ^ 1100) := by
      intro k hlow hne
      have h1 := hlow hne
      have h2 : (1:ℚ) / 2 ^ 41 * 2 ^ 1100 ≤ (iTimesW l r N k).toRat * 2 ^ 1100 :=
        mul_le_mul_of_nonneg_right h1 (by positivity)
      have h3 : (1:ℚ) ≤ 1 / 2 ^ 41 * 2 ^ 1100 := by norm_num
      linarith
    have hWnn : 0 ≤ (sectorWidthFP l r N).toRat := by
      obtain ⟨_, _, hWlow, _⟩ := widthFP_facts hlr hN hr40 hN40 hd1
      have h : (0:ℚ) < 1 / 2 ^ 41 := by norm_num
      linarith
    have hT : (flD (iTimesW l r N i)).toRat ≤ (flD (iTimesW l r N j)).toRat := by
      apply flD_mono hMden1 hMden2 hMnum1 hMnum2
        (lt_of_le_of_lt hMhigh1 (by norm_num)) (lt_of_le_of_lt hMhigh2 (by norm_num))
        (conv i hMlow1) (conv j hMlow2)
      rw [hMval1, hMval2]
      exact mul_le_mul_of_nonneg_right (by exact_mod_cast hij) hWnn
    have hS : (flD (lPlusITimesW l r N i)).toRat ≤ (flD (lPlusITimesW l r N j)).toRat := by
      apply flD_mono hSden1 hSden2 hSnum1 hSnum2 hSlt1 hSlt2 hSge1 hSge2
      rw [hSval1, hSval2]
      linarith
    rw [sectorBoundaryFP_eq_floor, sectorBoundaryFP_eq_floor]
    rw [floorNat_eq (flD_num_nonneg hSnum1 hSden1) (flD_den_pos _),
      floorNat_eq (flD_num_nonneg hSnum2 hSden2) (flD_den_pos _)]
    exact Nat.floor_le_floor hS

theorem boundary_fp_exact_div {l r N : ℕ} (hlr : l ≤ r) (hN : 1 ≤ N) (hr40 : r ≤ 2 ^ 40)
    (hN40 : N ≤ 2 ^ 40) (hdvd : (r - l) % N = 0) :
    ∀ i, i ≤ N → sectorBoundaryFP l r N i = specBoundary l r N i := by
  intro i hi
  by_cases hrl : r - l = 0
  · have h : r = l := by omega
    subst h
    rw [boundary_fp_deg (by omega) i]
    unfold specBoundary
    simp
  · have hd1 : 1 ≤ r - l := by omega
    have hq : N * ((r - l) / N) = r - l := Nat.mul_div_cancel' (Nat.dvd_of_mod_eq_zero hdvd)
    set q := (r - l) / N with hqdef
    have hNq : (0:ℚ) < (N : ℚ) := by exact_mod_cast hN
    obtain ⟨hDden, hDnum, hDval⟩ := wFrac_facts hlr hN hr40 hN40
    have hWval : (sectorWidthFP l r N).toRat = (q : ℚ) := by
      rw [sectorWidthFP_eq_flD]
      exact @flD_exact_nat (wFrac l r N) q hDden hDnum
        (by
          rw [hDval, div_eq_iff hNq.ne',
            show (r - l : ℕ) = q * N from (hq.symm.trans (Nat.mul_comm N q))]
          push_cast
          ring)
        (by
          have h1 : q ≤ r - l := Nat.div_le_self _ _
          omega)
    have hiq : i * q ≤ r - l := by
      calc i * q ≤ N * q := Nat.mul_le_mul_right q hi
        _ = r - l := hq
    obtain ⟨hMden, hMnum, hMvalW, hh1, hh2⟩ := mulFP_facts hlr hN hr40 hN40 hd1 hi
    have hTval : (flD (iTimesW l r N i)).toRat = ((i * q : ℕ) : ℚ) :=
      @flD_exact_nat (iTimesW l r N i) (i * q) hMden hMnum
        (by
          rw [hMvalW, hWval]
          push_cast
          ring)
        (lt_of_le_of_lt (le_trans hiq (by omega : r - l ≤ 2 ^ 40)) (by norm_num))
    obtain ⟨hSden, hSnum, hSval, hh3, hh4⟩ := addFP_facts hlr hN hr40 hN40 hd1 hi
    have hSv : (lPlusITimesW l r N i).toRat = ((l + i * q : ℕ) : ℚ) := by
      rw [hSval, hTval]
      push_cast
      ring
    have hFSval : (flD (lPlusITimesW l r N i)).toRat = ((l + i * q : ℕ) : ℚ) :=
      @flD_exact_nat (lPlusITimesW l r N i) (l + i * q) hSden hSnum hSv
        (lt_of_le_of_lt
          (Nat.add_le_add (by omega : l ≤ 2 ^ 40) (le_trans hiq (by omega : r - l ≤ 2 ^ 40)))
          (by norm_num))
    rw [sectorBoundaryFP_eq_floor,
      floorNat_eq (flD_num_nonneg hSnum hSden) (flD_den_pos _), hFSval, Nat.floor_natCast]
    unfold specBoundary
    have h : i * (r - l) / N = i * q := by
      rw [← hq, show i * (N * q) = i * q * N from by ring]
      exact Nat.mul_div_cancel _ (by omega)
    rw [h]

theorem boundary_fp_exact_32 {l r : ℕ} (hlr : l ≤ r) (hr40 : r ≤ 2 ^ 40) :
    ∀ i, i ≤ 32 → sectorBoundaryFP l r 32 i = specBoundary l r 32 i := by
  intro i hi
  by_cases hrl : r - l = 0
  · have h : r = l := by omega
    subst h
    rw [boundary_fp_deg (by omega) i]
    unfold specBoundary
    simp
  · have hd1 : 1 ≤ r - l := by omega
    have hN : (1:ℕ) ≤ 32 := by norm_num
    have hN40 : (32:ℕ) ≤ 2 ^ 40 := by norm_num
    obtain ⟨hDden, hDnum, hDval⟩ := wFrac_facts hlr hN hr40 hN40
    have hWval : (sectorWidthFP l r 32).toRat = ((r - l : ℕ) : ℚ) / 2 ^ 5 := by
      rw [sectorWidthFP_eq_flD]
      exact @flD_exact_dyadic (wFrac l r 32) (r - l) 5 hDden hDnum
        (by rw [hDval]; norm_num) (by omega) (by norm_num)
    have hmul40 : i * (r - l) ≤ 32 * 2 ^ 40 := Nat.mul_le_mul hi (by omega)
    obtain ⟨hMden, hMnum, hMvalW, hh1, hh2⟩ := mulFP_facts hlr hN hr40 hN40 hd1 hi
    have hTval : (flD (iTimesW l r 32 i)).toRat = ((i * (r - l) : ℕ) : ℚ) / 2 ^ 5 :=
      @flD_exact_dyadic (iTimesW l r 32 i) (i * (r - l)) 5 hMden hMnum
        (by
          rw [hMvalW, hWval]
          push_cast
          ring)
        (lt_of_le_of_lt hmul40 (by norm_num)) (by norm_num)
    obtain ⟨hSden, hSnum, hSval, hh3, hh4⟩ := addFP_facts hlr hN hr40 hN40 hd1 hi
    have hSv : (lPlusITimesW l r 32 i).toRat = ((2 ^ 5 * l + i * (r - l) : ℕ) : ℚ) / 2 ^ 5 := by
      rw [hSval, hTval]
      push_cast
      field_simp
      ring
    have hFSval : (flD (lPlusITimesW l r 32 i)).toRat =
        ((2 ^ 5 * l + i * (r - l) : ℕ) : ℚ) / 2 ^ 5 :=
      @flD_exact_dyadic (lPlusITimesW l r 32 i) (2 ^ 5 * l + i * (r - l)) 5 hSden hSnum hSv
        (by
          have h1 : 2 ^ 5 * l + i * (r - l) ≤ 2 ^ 45 + 32 * 2 ^ 40 :=
            Nat.add_le_add (by omega) hmul40
          omega)
        (by norm_num)
    rw [sectorBoundaryFP_eq_floor,
      floorNat_eq (flD_num_nonneg hSnum hSden) (flD_den_pos _), hFSval]
    rw [show ((2:ℚ) ^ 5) = ((2 ^ 5 : ℕ) : ℚ) from by norm_num]
    rw [Nat.floor_div_nat, Nat.floor_natCast]
    rw [Nat.mul_add_div (by norm_num) l (i * (r - l))]
    unfold specBoundary
    norm_num

/-- **C2** (corrected).  Line 79 computes `int(left_edge + i*sector_width)` in
IEEE binary64 arithmetic, not in exact rationals, so the claimed floor formula
`boundary[i] = ⌊left + i·(right−left)/N⌋` and the endpoint identity
`boundary[N] = right_edge` are NOT theorems of the code (see
`sector_boundaries_claim_cex`).  What does hold, for any edge pair
`left ≤ right` and any `N ≥ 1` (at the program's realistic magnitudes
`right ≤ 2^40`, `N ≤ 2^40`, far below any overflow): the analyzer builds
exactly `N+1` boundary columns and exactly `N` sectors, `boundary[0] = left`,
and the boundaries are non-decreasing; moreover the floor formula — and with
it `boundary[N] = right` — is restored whenever `N` divides
`right − left`, and at the pipeline's only deployed sector count `N = 32`
(where `(right−left)/32` and every intermediate double is exact). -/
theorem sector_boundaries_fp_spec {l r N : ℕ} (hlr : l ≤ r) (hN : 1 ≤ N)
    (hr40 : r ≤ 2 ^ 40) (hN40 : N ≤ 2 ^ 40) :
    (sectorBoundariesFP l r N).length = N + 1 ∧
    sectorBoundaryFP l r N 0 = l ∧
    (∀ i j, i ≤ j → j ≤ N → sectorBoundaryFP l r N i ≤ sectorBoundaryFP l r N j) ∧
    (∀ img : Img, (sectorColorsOf img l r N).length = N) ∧
    ((r - l) % N = 0 →
      (∀ i, i ≤ N → sectorBoundaryFP l r N i = specBoundary l r N i) ∧
      sectorBoundaryFP l r N N = r) ∧
    (N = 32 → ∀ i, i ≤ N → sectorBoundaryFP l r N i = specBoundary l r N i) := by
  refine ⟨?_, ?_, boundary_fp_mono hlr hN hr40 hN40, ?_, ?_, ?_⟩
  · simp [sectorBoundariesFP]
  · exact boundary_fp_zero (by omega)
  · intro img
    simp [sectorColorsOf]
  · intro hdvd
    refine ⟨boundary_fp_exact_div hlr hN hr40 hN40 hdvd, ?_⟩
    rw [boundary_fp_exact_div hlr hN hr40 hN40 hdvd N le_rfl]
    unfold specBoundary
    rw [Nat.mul_div_cancel_left _ (by omega : 0 < N)]
    omega
  · rintro rfl
    exact boundary_fp_exact_32 hlr hr40

/-- **C2, counterexample.**  The claim fails on the code: at edges `(0, 1)` —
reachable, since the edge detector on a flat 2×1 image takes the fallback
branch and returns exactly `(0, 1)` — with `N = 49` sectors, binary64 gives
`sector_boundaries[49] = int(0 + 49*(1/49)) = int(0.9999999999999999) = 0`,
while the claimed exact formula gives `⌊0 + 49·(1−0)/49⌋ = 1 = right_edge`:
the last boundary does not equal the right edge and the floor formula is
violated. -/
theorem sector_boundaries_claim_cex :
    detectEdges (grayImage 2 1 100) = some (0, 1) ∧
    sectorBoundaryFP 0 1 49 49 = 0 ∧
    specBoundary 0 1 49 49 = 1 ∧
    sectorBoundaryFP 0 1 49 49 ≠ specBoundary 0 1 49 49 :=
  ⟨by decide, by decide, by decide, by decide⟩

/-- C2 witness: the amended statement evaluated at `left = 2`, `right = 10`,
`N = 4` (a divisible case: `8 % 4 = 0`), giving 5 boundary columns that start
at 2 and end at 10. -/
theorem sector_boundaries_fp_spec_witness :
    ((2:ℕ) ≤ 10 ∧ (1:ℕ) ≤ 4 ∧ (10:ℕ) ≤ 2 ^ 40 ∧ (4:ℕ) ≤ 2 ^ 40 ∧ (10 - 2) % 4 = 0) ∧
    (sectorBoundariesFP 2 10 4).length = 4 + 1 ∧
    sectorBoundaryFP 2 10 4 0 = 2 ∧
    sectorBoundaryFP 2 10 4 4 = 10 :=
  ⟨⟨by norm_num, by norm_num, by norm_num, by norm_num, by norm_num⟩,
    (sector_boundaries_fp_spec (by norm_num) (by norm_num) (by norm_num) (by norm_num)).1,
    (sector_boundaries_fp_spec (by norm_num) (by norm_num) (by norm_num) (by norm_num)).2.1,
    ((sector_boundaries_fp_spec (by norm_num) (by norm_num) (by norm_num)
      (by norm_num)).2.2.2.2.1 (by norm_num)).2⟩

theorem getD_chan_le {row : List RGB} {c : ℕ} {chan : RGB → ℕ}
    (hrow : ∀ p ∈ row, chan p ≤ 255) (hzero : chan (0, 0, 0) ≤ 255) :
    chan (row.getD c (0, 0, 0)) ≤ 255 := by
  by_cases hc : c < row.length
  · rw [List.getD_eq_getElem _ _ hc]
    exact hrow _ (List.getElem_mem hc)
  · rw [List.getD_eq_default _ _ (le_of_not_lt hc)]
    exact hzero

theorem blockSum_le {img : Img} {chan : RGB → ℕ}
    (hpix : ∀ row ∈ img, ∀ p ∈ row, chan p ≤ 255) (hzero : chan (0, 0, 0) ≤ 255)
    (a b : ℕ) : blockSum img a b chan ≤ height img * ((b - a) * 255) := by
  unfold blockSum
  calc (img.map (fun row =>
      ((List.range (b - a)).map (fun j => chan (row.getD (a + j) (0, 0, 0)))).sum)).sum
      ≤ (img.map (fun row =>
        ((List.range (b - a)).map (fun j => chan (row.getD (a + j) (0, 0, 0)))).sum)).length *
          ((b - a) * 255) := by
        rw [← smul_eq_mul]
        apply List.sum_le_card_nsmul
        intro x hx
        rcases List.mem_map.mp hx with ⟨row, hrow, hrx⟩
        rw [← hrx]
        calc ((List.range (b - a)).map (fun j => chan (row.getD (a + j) (0, 0, 0)))).sum
            ≤ ((List.range (b - a)).map (fun j => chan (row.getD (a + j) (0, 0, 0)))).length *
              255 := by
              rw [← smul_eq_mul]
              apply List.sum_le_card_nsmul
              intro y hy
              rcases List.mem_map.mp hy with ⟨j, _, hjy⟩
              rw [← hjy]
              exact getD_chan_le (hpix row hrow) hzero
          _ = (b - a) * 255 := by simp
    _ = height img * ((b - a) * 255) := by simp [height]

theorem chan_avg_le {img : Img} {chan : RGB → ℕ}
    (hpix : ∀ row ∈ img, ∀ p ∈ row, chan p ≤ 255) (hzero : chan (0, 0, 0) ≤ 255)
    (a b : ℕ) (hD : 0 < height img * (b - a)) :
    blockSum img a b chan / (height img * (b - a)) ≤ 255 := by
  have h1 := blockSum_le hpix hzero a b
  calc blockSum img a b chan / (height img * (b - a))
      ≤ (height img * (b - a) * 255) / (height img * (b - a)) := by
        apply Nat.div_le_div_right
        rw [mul_assoc]
        exact h1
    _ = 255 := Nat.mul_div_cancel_left _ hD

theorem avgColor_bounded {img : Img} (hne : img ≠ [])
    (hpix : ∀ row ∈ img, ∀ p ∈ row, p.1 ≤ 255 ∧ p.2.1 ≤ 255 ∧ p.2.2 ≤ 255)
    {a b : ℕ} (hab : a < b) :
    ∃ c : RGB, avgColor img a b = some c ∧ c.1 ≤ 255 ∧ c.2.1 ≤ 255 ∧ c.2.2 ≤ 255 := by
  have hD : 0 < height img * (b - a) := by
    have h0 : 0 < img.length := List.length_pos.mpr hne
    have h1 : 0 < height img := h0
    have h2 : 0 < b - a := by omega
    positivity
  refine ⟨(blockSum img a b (fun p => p.1) / (height img * (b - a)),
    blockSum img a b (fun p => p.2.1) / (height img * (b - a)),
    blockSum img a b (fun p => p.2.2) / (height img * (b - a))), ?_, ?_, ?_, ?_⟩
  · unfold avgColor
    rw [if_neg (by push_neg; exact ⟨hne, by omega⟩)]
  · exact chan_avg_le (fun row hrow p hp => (hpix row hrow p hp).1) (by norm_num) a b hD
  · exact chan_avg_le (fun row hrow p hp => (hpix row hrow p hp).2.1) (by norm_num) a b hD
  · exact chan_avg_le (fun row hrow p hp => (hpix row hrow p hp).2.2) (by norm_num) a b hD

/-- C3, counterexample: on a flat 1×4 image the detected edges are
`(1, 3)`; with `N = 32` the first sector is empty (both boundaries equal
1), so the pipeline averages an empty pixel block and the sector's
average color is undefined (`none`), not an integer triple in [0, 255]. -/
theorem sector_colors_cex :
    (processSpectrum (grayImage 4 1 100) 32).map
      (fun res => res.sector_colors.getD 0 (some (0, 0, 0))) = some none := by
  decide

/-- C3 (amended): on a nonempty image with 8-bit pixels, every sector
whose pixel block is nonempty (strictly increasing adjacent boundaries)
gets a defined average color with every channel in [0, 255]; zero-width
sectors (which do occur, e.g. whenever `r − l < N`) average an empty block
and their color is undefined. -/
theorem sector_colors_bounded (img : Img) (hne : img ≠ [])
    (hpix : ∀ row ∈ img, ∀ p ∈ row, p.1 ≤ 255 ∧ p.2.1 ≤ 255 ∧ p.2.2 ≤ 255)
    (l r N i : ℕ) (hiN : i < N)
    (hlt : sectorBoundary l r N i < sectorBoundary l r N (i + 1)) :
    ∃ c : RGB, (sectorColorsOf img l r N).getD i none = some c ∧
      c.1 ≤ 255 ∧ c.2.1 ≤ 255 ∧ c.2.2 ≤ 255 := by
  have hgd : (sectorColorsOf img l r N).getD i none =
      avgColor img (sectorBoundary l r N i) (sectorBoundary l r N (i + 1)) := by
    unfold sectorColorsOf
    rw [List.getD_eq_getElem _ _ (by simpa using hiN)]
    simp
  rw [hgd]
  exact avgColor_bounded hne hpix hlt

/-- C3 witness: the amended statement on the 1×4 flat image with a single
nonempty sector `[1, 3)` of gray value 100. -/
theorem sector_colors_bounded_witness :
    (grayImage 4 1 100 ≠ []) ∧
    (∀ row ∈ grayImage 4 1 100, ∀ p ∈ row, p.1 ≤ 255 ∧ p.2.1 ≤ 255 ∧ p.2.2 ≤ 255) ∧
    (0 < 1) ∧ (sectorBoundary 1 3 1 0 < sectorBoundary 1 3 1 1) ∧
    (∃ c : RGB, (sectorColorsOf (grayImage 4 1 100) 1 3 1).getD 0 none = some c ∧
      c.1 ≤ 255 ∧ c.2.1 ≤ 255 ∧ c.2.2 ≤ 255) :=
  ⟨by decide, by decide, by decide, by decide,
    sector_colors_bounded (grayImage 4 1 100) (by decide) (by decide) 1 3 1 0 (by decide)
      (by decide)⟩

/-! ## Claim C4: classification and report format -/

theorem classifyColor_eq (c : RGB) :
    classifyColor c = some (specLabel (scaleChannel c.1)) := by
  unfold classifyColor specLabel hsvOf
  by_cases h1 : 200 ≤ scaleChannel c.1
  · rw [if_pos h1, if_pos h1]
  · rw [if_neg h1, if_neg h1]
    by_cases h2 : 125 ≤ scaleChannel c.1
    · rw [if_pos h2, if_pos h2]
    · rw [if_neg h2, if_neg h2, if_pos (by omega)]

theorem mapM_some_classify (colors : List RGB) :
    (colors.map some).mapM (fun oc : Option RGB => oc.bind classifyColor) =
      some (colors.map (fun c => specLabel (scaleChannel c.1))) := by
  induction colors with
  | nil => rfl
  | cons c cs ih =>
    rw [List.map_cons, List.mapM_cons, ih]
    simp [classifyColor_eq]

/-- C4 (confirmed): the per-sector classification is the total threshold
function `specLabel` of the scaled red channel alone (`≥ 200` Don't sell,
`[125, 200)` Squeeze room, `< 125` Sell; the dangling `elif` never leaves
the label unbound), and the report is the header `Sector #, Opinion`
followed by exactly one `Sector <i+1>, <label>` line per sector. -/
theorem classification_report :
    (∀ c : RGB, classifyColor c = some (specLabel (scaleChannel c.1))) ∧
    (∀ colors : List RGB, reportOf (colors.map some) =
      some ("Sector #, Opinion" ::
        (colors.map (fun c => specLabel (scaleChannel c.1))).enum.map
          (fun p => "Sector " ++ toString (p.1 + 1) ++ ", " ++ p.2))) ∧
    (∀ colors : List RGB, (reportOf (colors.map some)).map List.length =
      some (colors.length + 1)) := by
  refine ⟨classifyColor_eq, ?_, ?_⟩
  · intro colors
    unfold reportOf
    rw [mapM_some_classify]
    rfl
  · intro colors
    unfold reportOf
    rw [mapM_some_classify]
    simp

/-- C4 witness: the classification and report shape evaluated on two
concrete colors (red 100 → Sell, red 200 → Don't sell). -/
theorem classification_report_witness :
    classifyColor (100, 0, 0) = some (specLabel (scaleChannel 100)) ∧
    reportOf ([(100, 0, 0), (200, 5, 5)].map some) =
      some ("Sector #, Opinion" ::
        ([(100, 0, 0), (200, 5, 5)].map
            (fun c : RGB => specLabel (scaleChannel c.1))).enum.map
          (fun p => "Sector " ++ toString (p.1 + 1) ++ ", " ++ p.2)) :=
  ⟨classification_report.1 (100, 0, 0), classification_report.2.1 [(100, 0, 0), (200, 5, 5)]⟩

/-! ## Claim C5: per-file error handling in the folder driver -/

/-- C5 (confirmed): the folder driver is a total function; a file that
fails (decode failure or a processing error) contributes no entry and is
simply skipped, every successfully processed file keeps its entry, and
results decompose file by file. -/
theorem folder_error_handling (files : List (String × Option Img)) (N : ℕ) :
    (∀ p ∈ processFolder files N,
      ∃ img, (p.1, some img) ∈ files ∧ processSpectrum img N = some p.2) ∧
    (∀ name img r, (name, some img) ∈ files → processSpectrum img N = some r →
      (name, r) ∈ processFolder files N) ∧
    (∀ name, processFolder ((name, (none : Option Img)) :: files) N =
      processFolder files N) ∧
    (∀ name img, processSpectrum img N = none →
      processFolder ((name, some img) :: files) N = processFolder files N) ∧
    (∀ gs, processFolder (files ++ gs) N = processFolder files N ++ processFolder gs N) := by
  refine ⟨?_, ?_, ?_, ?_, ?_⟩
  · intro p hp
    rcases List.mem_filterMap.mp hp with ⟨f, hf, heq⟩
    rcases f with ⟨name, oimg⟩
    cases oimg with
    | none => simp at heq
    | some img =>
      simp only [Option.some_bind] at heq
      cases hres : processSpectrum img N with
      | none => rw [hres] at heq; simp at heq
      | some res =>
        rw [hres] at heq
        simp only [Option.map_some'] at heq
        cases heq
        exact ⟨img, hf, hres⟩
  · intro name img r hmem hres
    exact List.mem_filterMap.mpr ⟨(name, some img), hmem, by simp [hres]⟩
  · intro name
    unfold processFolder
    rw [List.filterMap_cons]
    rfl
  · intro name img hres
    unfold processFolder
    rw [List.filterMap_cons]
    simp [hres]
  · intro gs
    unfold processFolder
    exact List.filterMap_append _ _ _

/-- C5 witness: a folder with one undecodable file and one good 1×4 gray
file; the good file's result is present (and the bad one contributes
nothing). -/
theorem folder_error_handling_witness :
    ("good", (⟨(1, 3), [1, 3], [some (10, 10, 10)], 2⟩ : SpectrumResult)) ∈
      processFolder [("bad", (none : Option Img)), ("good", some (grayImage 4 1 10))] 1 :=
  (folder_error_handling [("bad", (none : Option Img)),
      ("good", some (grayImage 4 1 10))] 1).2.1
    "good" (grayImage 4 1 10) _ (by decide) (by decide)

/-! ## Claim C6: determinism -/

/-- C6 (confirmed): the whole pipeline is a pure function of the decoded
image and the parameters, so a second run yields the same edge pair,
boundaries, sector colors, and an identical report. -/
theorem pipeline_deterministic (img : Img) (N : ℕ) :
    detectEdges img = detectEdges img ∧
    processSpectrum img N = processSpectrum img N ∧
    (processSpectrum img N).map (fun res => res.sector_boundaries) =
      (processSpectrum img N).map (fun res => res.sector_boundaries) ∧
    (processSpectrum img N).map (fun res => res.sector_colors) =
      (processSpectrum img N).map (fun res => res.sector_colors) ∧
    (processSpectrum img N).map (fun res => reportOf res.sector_colors) =
      (processSpectrum img N).map (fun res => reportOf res.sector_colors) :=
  ⟨rfl, rfl, rfl, rfl, rfl⟩

/-! ## Claim C9: overlays never influence the analysis -/

/-- C9 (confirmed): the analysis is computed from the `img_array` snapshot
taken before any overlay is drawn, so for arbitrary title-box, rectangle,
edge-line, sector-line and label draw functions the returned edges,
boundaries and sector colors coincide with the draw-free pipeline. -/
theorem overlay_frame (dTitle dBox dEdgeLines dSectorLines dLabels : Img → Img)
    (img : Img) (N : ℕ) :
    (processSpectrumDraw dTitle dBox dEdgeLines dSectorLines dLabels img N).map
      (fun p => p.2) = processSpectrum img N := by
  unfold processSpectrumDraw processSpectrum
  cases detectEdges img <;> rfl

/-! ## Claim C8: the solid-gray 100×50 scenario -/

theorem getD_replicate {α : Type} (n i : ℕ) (a d : α) :
    (List.replicate n a).getD i d = if i < n then a else d := by
  split
  · rw [List.getD_eq_getElem _ _ (by simpa using by assumption)]
    exact List.getElem_replicate _ _
  · exact List.getD_eq_default _ _ (by simpa using by omega)

theorem map_range_const {α : Type} (n : ℕ) (f : ℕ → α) (K : α) (h : ∀ i < n, f i = K) :
    (List.range n).map f = List.replicate n K := by
  apply List.eq_replicate_iff.mpr
  refine ⟨by simp, ?_⟩
  intro b hb
  rcases List.mem_map.mp hb with ⟨i, hi, hib⟩
  rw [← hib]
  exact h i (List.mem_range.mp hi)

theorem foldr_fmin_replicate (n : ℕ) (v : Frac) :
    (List.replicate n v).foldr Frac.fmin v = v := by
  induction n with
  | zero => rfl
  | succ m ih =>
    rw [List.replicate_succ, List.foldr_cons, ih]
    unfold Frac.fmin
    exact ite_self v

theorem foldr_fmax_replicate (n : ℕ) (v : Frac) :
    (List.replicate n v).foldr Frac.fmax v = v := by
  induction n with
  | zero => rfl
  | succ m ih =>
    rw [List.replicate_succ, List.foldr_cons, ih]
    unfold Frac.fmax
    exact ite_self v

theorem listMin_replicate {w : ℕ} (hw : 1 ≤ w) (v : Frac) :
    listMin (List.replicate w v) = v := by
  unfold listMin
  cases w with
  | zero => omega
  | succ m =>
    rw [List.replicate_succ]
    show ((v :: List.replicate m v).foldr Frac.fmin v) = v
    rw [← List.replicate_succ]
    exact foldr_fmin_replicate _ v

theorem listMax_replicate {w : ℕ} (hw : 1 ≤ w) (v : Frac) :
    listMax (List.replicate w v) = v := by
  unfold listMax
  cases w with
  | zero => omega
  | succ m =>
    rw [List.replicate_succ]
    show ((v :: List.replicate m v).foldr Frac.fmax v) = v
    rw [← List.replicate_succ]
    exact foldr_fmax_replicate _ v

theorem normalize_replicate_num (w : ℕ) (v : Frac) :
    ∀ y ∈ normalize (List.replicate w v), y.num = 0 := by
  intro y hy
  rcases List.mem_map.mp hy with ⟨x, hx, hxy⟩
  rcases List.mem_replicate.mp hx with ⟨hw, hxv⟩
  subst hxv
  rw [← hxy]
  show ((x.num * (listMin (List.replicate w x)).den -
    (listMin (List.replicate w x)).num * x.den) * _ : ℤ) = 0
  rw [listMin_replicate (by omega) x]
  ring

theorem getD_num_zero {xs : List Frac} (h : ∀ y ∈ xs, y.num = 0) (k : ℕ) :
    (xs.getD k Frac.zero).num = 0 := by
  by_cases hk : k < xs.length
  · rw [List.getD_eq_getElem _ _ hk]
    exact h _ (List.getElem_mem hk)
  · rw [List.getD_eq_default _ _ (le_of_not_lt hk)]
    rfl

theorem npGradient_num_zero {xs : List Frac} (h : ∀ y ∈ xs, y.num = 0) :
    ∀ y ∈ npGradient xs, y.num = 0 := by
  intro y hy
  rcases List.mem_map.mp hy with ⟨i, _, hiy⟩
  rw [← hiy]
  split
  · show (_ * _ - _ * _ : ℤ) = 0
    rw [getD_num_zero h, getD_num_zero h]
    ring
  · split
    · show (_ * _ - _ * _ : ℤ) = 0
      rw [getD_num_zero h, getD_num_zero h]
      ring
    · show ((_ * _ - _ * _) * _ : ℤ) = 0
      rw [getD_num_zero h, getD_num_zero h]
      ring

theorem fabs_num_zero {xs : List Frac} (h : ∀ y ∈ xs, y.num = 0) :
    ∀ y ∈ xs.map Frac.fabs, y.num = 0 := by
  intro y hy
  rcases List.mem_map.mp hy with ⟨x, hx, hxy⟩
  rw [← hxy]
  show |x.num| = 0
  rw [h x hx]
  rfl

theorem zeroFrom_num_zero {xs : List Frac} (h : ∀ y ∈ xs, y.num = 0) (iR : ℕ) :
    ∀ y ∈ zeroFrom xs iR, y.num = 0 := by
  intro y hy
  rcases List.mem_map.mp hy with ⟨i, _, hiy⟩
  rw [← hiy]
  split
  · exact getD_num_zero h i
  · rfl

theorem localMaxima_num_zero {xs : List Frac} (h : ∀ y ∈ xs, y.num = 0) :
    localMaxima xs = [] := by
  unfold localMaxima
  apply List.filterMap_eq_nil_iff.mpr
  intro l _
  rw [if_neg]
  rintro ⟨-, hlt⟩
  unfold Frac.Lt at hlt
  rw [getD_num_zero h, getD_num_zero h] at hlt
  simp at hlt

theorem findPeaks_of_no_maxima {xs : List Frac} (h : localMaxima xs = [])
    (hmin : Frac) (dist : ℕ) : findPeaks xs hmin dist = [] := by
  unfold findPeaks
  rw [h]
  rfl

theorem grayImage_ne_nil {w h g : ℕ} (hh : 1 ≤ h) : grayImage w h g ≠ [] := by
  unfold grayImage
  intro hc
  have := congrArg List.length hc
  simp at this
  omega

theorem grayImage_width {w g : ℕ} (h : ℕ) (hh : 1 ≤ h) : width (grayImage w h g) = w := by
  unfold width grayImage
  cases h with
  | zero => omega
  | succ m =>
    rw [List.replicate_succ]
    simp

theorem grayImage_height (w h g : ℕ) : height (grayImage w h g) = h := by
  simp [height, grayImage]

theorem foldr_add_replicate (n : ℕ) (v : ℤ) :
    (List.replicate n (⟨v, 1⟩ : Frac)).foldr Frac.add Frac.zero = ⟨n * v, 1⟩ := by
  induction n with
  | zero =>
    show Frac.zero = _
    unfold Frac.zero
    norm_num
  | succ m ih =>
    rw [List.replicate_succ, List.foldr_cons, ih]
    show (⟨v * 1 + (m * v) * 1, 1 * 1⟩ : Frac) = _
    congr 1
    · push_cast
      ring

theorem colMean_gray {w h g c : ℕ} (hh : 1 ≤ h) (hc : c < w) (chan : RGB → ℕ) :
    colMean (grayImage w h g) c chan = ⟨(h : ℤ) * chan (g, g, g), (h : ℤ)⟩ := by
  unfold colMean
  rw [grayImage_height]
  have h1 : (grayImage w h g).map (fun row => Frac.ofNat (chan (row.getD c (0, 0, 0)))) =
      List.replicate h (⟨(chan (g, g, g) : ℤ), 1⟩ : Frac) := by
    unfold grayImage
    rw [List.map_replicate, getD_replicate, if_pos hc]
    rfl
  rw [h1, foldr_add_replicate]
  show (⟨_ * 1, 1 * _⟩ : Frac) = _
  congr 1
  · rw [mul_one]
  · show 1 * ((h : ℕ) : ℤ) = (h : ℤ)
    rw [one_mul]

theorem colGray_gray {w h g : ℕ} (hh : 1 ≤ h) {c : ℕ} (hc : c < w) :
    colGray (grayImage w h g) c = colGray (grayImage w h g) 0 := by
  have hw : 0 < w := by omega
  unfold colGray
  rw [colMean_gray hh hc, colMean_gray hh hc, colMean_gray hh hc,
    colMean_gray hh hw, colMean_gray hh hw, colMean_gray hh hw]

theorem grayProfile_gray (w h g : ℕ) (hh : 1 ≤ h) :
    grayProfile (grayImage w h g) = List.replicate w (colGray (grayImage w h g) 0) := by
  unfold grayProfile
  rw [grayImage_width h hh]
  exact map_range_const _ _ _ (fun i hi => colGray_gray hh hi)

theorem peaksOf_gray (w h g : ℕ) (hh : 1 ≤ h) : peaksOf (grayImage w h g) = [] := by
  unfold peaksOf modifiedOf normProfile
  rw [grayProfile_gray w h g hh]
  exact findPeaks_of_no_maxima (localMaxima_num_zero (zeroFrom_num_zero
    (fabs_num_zero (npGradient_num_zero (normalize_replicate_num _ _))) _)) _ _

theorem detectEdges_gray (w h g : ℕ) (hh : 1 ≤ h) (hw : 2 ≤ w) :
    detectEdges (grayImage w h g) = some (w / 4, min (3 * w / 4) (ignoreRight w)) := by
  unfold detectEdges
  rw [peaksOf_gray w h g hh, grayImage_width h hh]
  rw [if_neg (by omega), if_neg (by simp)]

theorem sum_replicate_nat (n a : ℕ) : (List.replicate n a).sum = n * a := by
  rw [List.sum_replicate, smul_eq_mul]

theorem avgColor_gray {w h g a b : ℕ} (hh : 1 ≤ h) (hab : a < b) (hbw : b ≤ w) :
    avgColor (grayImage w h g) a b = some (g, g, g) := by
  have hsum : ∀ chan : RGB → ℕ,
      blockSum (grayImage w h g) a b chan = h * ((b - a) * chan (g, g, g)) := by
    intro chan
    unfold blockSum grayImage
    rw [List.map_replicate]
    rw [map_range_const (b - a) _ (chan (g, g, g)) (fun j hj => by
      rw [getD_replicate, if_pos (by omega)])]
    rw [sum_replicate_nat, sum_replicate_nat]
  have hD : 0 < h * (b - a) := by
    have : 0 < b - a := by omega
    positivity
  have hdiv : ∀ chan : RGB → ℕ,
      blockSum (grayImage w h g) a b chan / (height (grayImage w h g) * (b - a)) =
        chan (g, g, g) := by
    intro chan
    rw [hsum, grayImage_height, ← mul_assoc]
    exact Nat.mul_div_cancel_left _ hD
  unfold avgColor
  rw [if_neg (by push_neg; exact ⟨grayImage_ne_nil hh, by omega⟩)]
  rw [hdiv, hdiv, hdiv]

theorem mapM_replicate_some {c : RGB} {lbl : String} (hc : classifyColor c = some lbl)
    (n : ℕ) : (List.replicate n (some c)).mapM
      (fun oc : Option RGB => oc.bind classifyColor) = some (List.replicate n lbl) := by
  induction n with
  | zero => rfl
  | succ m ih =>
    rw [List.replicate_succ, List.mapM_cons, List.replicate_succ]
    simp only [Option.bind_eq_bind, Option.some_bind, hc, ih]
    rfl

theorem zip_replicate_self {α β : Type} (l : List α) (a : β) :
    l.zip (List.replicate l.length a) = l.map (fun x => (x, a)) := by
  induction l with
  | nil => rfl
  | cons x xs ih =>
    rw [List.length_cons, List.replicate_succ, List.zip_cons_cons, List.map_cons, ih]

theorem enum_replicate {α : Type} (n : ℕ) (a : α) :
    (List.replicate n a).enum = (List.range n).map (fun i => (i, a)) := by
  rw [List.enum_eq_zip_range, List.length_replicate]
  have h := zip_replicate_self (List.range n) a
  rw [List.length_range] at h
  exact h

theorem classifyColor_gray_sell {g : ℕ} (hsell : scaleChannel g < 125) :
    classifyColor (g, g, g) = some "Sell" := by
  unfold classifyColor hsvOf
  rw [if_neg (by show ¬(200 ≤ scaleChannel g); omega),
    if_neg (by show ¬(125 ≤ scaleChannel g); omega),
    if_pos (by show scaleChannel g < 125; omega)]

/-- C8 (confirmed): a solid-gray 100×50 image yields no peaks, so the
fallback edges `(25, 75)` are returned (the 90% boundary 90 does not
bind); the 32 sector averages all equal the gray value; and when the
scaled red value is below 125 every one of the 32 report lines reads
`Sell`. -/
theorem solid_gray_scenario (g : ℕ) (hsell : scaleChannel g < 125) :
    detectEdges (grayImage 100 50 g) = some (25, 75) ∧
    (sectorBoundaries 25 75 32).length = 33 ∧
    sectorColorsOf (grayImage 100 50 g) 25 75 32 = List.replicate 32 (some (g, g, g)) ∧
    reportOf (List.replicate 32 (some (g, g, g))) =
      some ("Sector #, Opinion" ::
        (List.range 32).map (fun i => "Sector " ++ toString (i + 1) ++ ", " ++ "Sell")) := by
  refine ⟨?_, by simp [sectorBoundaries], ?_, ?_⟩
  · rw [detectEdges_gray 100 50 g (by omega) (by omega)]
    rfl
  · unfold sectorColorsOf
    apply map_range_const
    intro i hi
    have hb1 : sectorBoundary 25 75 32 i < sectorBoundary 25 75 32 (i + 1) := by
      rw [sectorBoundary_eq (by omega) (by omega), sectorBoundary_eq (by omega) (by omega)]
      omega
    have hb2 : sectorBoundary 25 75 32 (i + 1) ≤ 100 := by
      rw [sectorBoundary_eq (by omega) (by omega)]
      show 25 + (i + 1) * 50 / 32 ≤ 100
      omega
    exact avgColor_gray (by omega) hb1 hb2
  · unfold reportOf
    rw [mapM_replicate_some (classifyColor_gray_sell hsell)]
    simp only [Option.map_some']
    rw [enum_replicate, List.map_map]
    rfl

/-- C8 witness: the scenario at gray value 80 (scaled red 113 < 125). -/
theorem solid_gray_scenario_witness :
    scaleChannel 80 < 125 ∧
    (detectEdges (grayImage 100 50 80) = some (25, 75) ∧
    (sectorBoundaries 25 75 32).length = 33 ∧
    sectorColorsOf (grayImage 100 50 80) 25 75 32 = List.replicate 32 (some (80, 80, 80)) ∧
    reportOf (List.replicate 32 (some (80, 80, 80))) =
      some ("Sector #, Opinion" ::
        (List.range 32).map (fun i => "Sector " ++ toString (i + 1) ++ ", " ++ "Sell"))) :=
  ⟨by decide, solid_gray_scenario 80 (by decide)⟩

end MicSpec
